import Mathlib

/-!
Shallow embedding of `src/PriorityQueue1.py` (class `pqdict`): an indexed
priority queue backed by a binary-heap array (`_heap`) together with a
key-to-index map (`_position`).

The Python `_Node` objects become the structure `Node`; the heap list becomes
a `List (Node K V P)`; the `_position` dict becomes an association list with
Python-dict semantics (`lookupPos`, `setPos`, `delPos`).  The configured
priority-key function (`_keyfn`) and comparator (`_precedes`) are carried in
the state.  Python's `keygen(value) if keygen is not None else value` is
modelled by always applying `keyfn` (the `None` default corresponds to the
identity function, with priority type equal to value type).

The helper methods `_swim`, `_sink` and `_reheapify` are referenced by the
module but their bodies are not part of the source file; they are modelled
from the spec (section 4.2), as indicated in their doc comments.

Exceptions become `Except PQErr`: every raising operation in the source checks
its error condition before performing any mutation, so an `.error` result
leaves the (immutable) input state as "the" post state.
-/

set_option linter.unusedVariables false
set_option linter.unnecessarySimpa false
set_option linter.unusedSectionVars false

namespace PQDict

/-- Embeds Python `_Node`: key, value, and derived priority. -/
structure Node (K V P : Type) where
  key : K
  value : V
  prio : P
deriving DecidableEq, Repr

/-- Embeds the `pqdict` instance state: the configured priority-key function
and comparator, the heap array `_heap`, and the index `_position`. -/
structure PQ (K V P : Type) where
  keyfn : V → P
  precedes : P → P → Bool
  heap : List (Node K V P)
  position : List (K × Nat)

/-- Error kinds raised by the source (`KeyError` with distinct meanings, and
`IndexError` on list access with an out-of-range index). -/
inductive PQErr where
  | keyAlreadyExists
  | keyNotFound
  | emptyQueue
  | indexError
deriving DecidableEq, Repr

variable {K V P : Type} [DecidableEq K]

/-- Python dict read: `position[key]`, as an option. -/
def lookupPos : List (K × Nat) → K → Option Nat
  | [], _ => none
  | (k', v) :: rest, k => if k' = k then some v else lookupPos rest k

/-- Python dict write: `position[key] = n` (overwrite or append). -/
def setPos : List (K × Nat) → K → Nat → List (K × Nat)
  | [], k, n => [(k, n)]
  | (k', v) :: rest, k, n =>
    if k' = k then (k, n) :: rest else (k', v) :: setPos rest k n

/-- Python dict removal: `position.pop(key)` / `del position[key]`
(removes the binding; the caller checks presence where the source does). -/
def delPos : List (K × Nat) → K → List (K × Nat)
  | [], _ => []
  | (k', v) :: rest, k => if k' = k then rest else (k', v) :: delPos rest k

/-- One swap step shared by the restoring algorithms: exchange the heap
entries at `i` and `j` and record both entries' new array indices in the
position map (no-op if either index is out of range, which the restoring
algorithms never do). -/
def swapNodes (q : PQ K V P) (i j : Nat) : PQ K V P :=
  match q.heap[i]?, q.heap[j]? with
  | some a, some b =>
    { q with
      heap := (q.heap.set i b).set j a
      position := setPos (setPos q.position b.key i) a.key j }
  | _, _ => q

/-- Modelled from the spec: `_swim(pos)` is referenced by `__setitem__` and
`_reheapify` but its body is not in the source file.  Spec 4.2: repeatedly
swap the entry with its parent while it precedes the parent, updating both
array and index on each swap, stopping at the root or when the parent no
longer yields. -/
def swim (q : PQ K V P) (pos : Nat) : PQ K V P :=
  if h0 : pos = 0 then q
  else
    match q.heap[pos]?, q.heap[(pos - 1) / 2]? with
    | some x, some p =>
      if q.precedes x.prio p.prio then
        swim (swapNodes q pos ((pos - 1) / 2)) ((pos - 1) / 2)
      else q
    | _, _ => q
termination_by pos
decreasing_by
  exact Nat.lt_of_le_of_lt (Nat.div_le_self _ _)
    (Nat.sub_lt (Nat.pos_of_ne_zero h0) Nat.one_pos)

/-- The "winning" child of `pos`: the child that most precedes its sibling
under the comparator (left child when only one exists or when the right does
not strictly precede the left). -/
def winner (q : PQ K V P) (pos : Nat) : Nat :=
  match q.heap[2 * pos + 1]?, q.heap[2 * pos + 2]? with
  | some cl, some cr =>
    if q.precedes cr.prio cl.prio then 2 * pos + 2 else 2 * pos + 1
  | _, _ => 2 * pos + 1

/-- Modelled from the spec: `_sink(pos)` is referenced by `pushpopitem` and
`_reheapify` but its body is not in the source file.  Spec 4.2: repeatedly
compare against the winning child and swap with it while that child precedes
the current entry, stopping at a leaf or when no child yields. -/
def sink (q : PQ K V P) (pos : Nat) : PQ K V P :=
  if hW : winner q pos < q.heap.length then
    match q.heap[winner q pos]?, q.heap[pos]? with
    | some w, some x =>
      if q.precedes w.prio x.prio then
        sink (swapNodes q pos (winner q pos)) (winner q pos)
      else q
    | _, _ => q
  else q
termination_by q.heap.length - pos
decreasing_by
  have hlen : (swapNodes q pos (winner q pos)).heap.length = q.heap.length := by
    unfold swapNodes
    split <;> simp
  have hpw : pos < winner q pos := by
    unfold winner
    split <;> (try split) <;> omega
  rw [hlen]
  omega

/-- Modelled from the spec: `_reheapify(pos)` is referenced by `__setitem__`
and `__delitem__` but its body is not in the source file.  Spec 4.2: attempt
sink, then attempt swim. -/
def reheapify (q : PQ K V P) (pos : Nat) : PQ K V P :=
  swim (sink q pos) pos

/-- Embeds `__getitem__`: `heap[position[key]].value` (KeyError as `none`). -/
def getitem (q : PQ K V P) (k : K) : Option V :=
  match lookupPos q.position k with
  | none => none
  | some pos => (q.heap[pos]?).map Node.value

/-- Embeds `__setitem__`: add a fresh entry at the end and swim it, or
overwrite an existing entry's value/priority in place and reheapify. -/
def setitem (q : PQ K V P) (k : K) (v : V) : PQ K V P :=
  match lookupPos q.position k with
  | none =>
    let n := q.heap.length
    let q' : PQ K V P :=
      { q with
        heap := q.heap ++ [⟨k, v, q.keyfn v⟩]
        position := setPos q.position k n }
    swim q' n
  | some pos =>
    match q.heap[pos]? with
    | some node =>
      reheapify { q with heap := q.heap.set pos ⟨node.key, v, q.keyfn v⟩ } pos
    | none => q

/-- Embeds `__delitem__`: pop the key from the index, move the last array
entry into the vacated slot (unless the removed entry is the last one,
which is the source's `end is node_to_delete` identity test), and reheapify.
The `.error .indexError` branch mirrors `heap.pop(-1)` on an empty list,
unreachable from consistent states. -/
def delitem (q : PQ K V P) (k : K) : Except PQErr (PQ K V P) :=
  match lookupPos q.position k with
  | none => .error .keyNotFound
  | some pos =>
    match q.heap.getLast? with
    | none => .error .indexError
    | some endNode =>
      let position' := delPos q.position k
      let heap' := q.heap.dropLast
      if pos = heap'.length then
        .ok { q with heap := heap', position := position' }
      else
        .ok (reheapify
          { q with
            heap := heap'.set pos endNode
            position := setPos position' endNode.key pos } pos)

/-- Embeds `topitem`: the key/value at array index 0, or the empty-queue
error. -/
def topitem (q : PQ K V P) : Except PQErr (K × V) :=
  match q.heap with
  | [] => .error .emptyQueue
  | node :: _ => .ok (node.key, node.value)

/-- Embeds `additem`: strict insert, failing when the key is already in the
index. -/
def additem (q : PQ K V P) (k : K) (v : V) : Except PQErr (PQ K V P) :=
  if (lookupPos q.position k).isSome then .error .keyAlreadyExists
  else .ok (setitem q k v)

/-- Embeds `updateitem`: strict update, failing when the key is absent. -/
def updateitem (q : PQ K V P) (k : K) (v : V) : Except PQErr (PQ K V P) :=
  if (lookupPos q.position k).isNone then .error .keyNotFound
  else .ok (setitem q k v)

/-- Embeds `pushpopitem`: combined insert-and-evict-top.  When the heap is
non-empty and the current top strictly precedes the new entry, the new entry
replaces the root (index updated: new key at 0, old root key deleted) and
sinks; otherwise the new pair is returned and the state is untouched. -/
def pushpopitem (q : PQ K V P) (k : K) (v : V) :
    Except PQErr ((K × V) × PQ K V P) :=
  let node : Node K V P := ⟨k, v, q.keyfn v⟩
  if (lookupPos q.position k).isSome then .error .keyAlreadyExists
  else
    match q.heap with
    | [] => .ok ((k, v), q)
    | top :: rest =>
      if q.precedes top.prio node.prio then
        let q' : PQ K V P :=
          { q with
            heap := node :: rest
            position := delPos (setPos q.position k 0) top.key }
        .ok ((top.key, top.value), sink q' 0)
      else .ok ((k, v), q)

/-- Embeds `replace_key`: check the new key for presence first, then pop the
old key's index entry, rebind it to the new key, and rename the key field of
the heap entry at that position. -/
def replace_key (q : PQ K V P) (k newKey : K) : Except PQErr (PQ K V P) :=
  if (lookupPos q.position newKey).isSome then .error .keyAlreadyExists
  else
    match lookupPos q.position k with
    | none => .error .keyNotFound
    | some pos =>
      match q.heap[pos]? with
      | some node =>
        .ok { q with
              position := setPos (delPos q.position k) newKey pos
              heap := q.heap.set pos ⟨newKey, node.value, node.prio⟩ }
      | none => .error .indexError

/-- Modelled from the spec: the spec's `removeItem(key) -> (key, value)`
(sections 4.2 and 6) returns the removed pair; the source file only contains
`__delitem__`, which deletes without returning.  The deletion behaviour is
exactly `delitem` (the embedding of `__delitem__`); only the returned pair is
taken from the spec. -/
def removeitem (q : PQ K V P) (k : K) :
    Except PQErr ((K × V) × PQ K V P) :=
  match lookupPos q.position k with
  | none => .error .keyNotFound
  | some pos =>
    match q.heap[pos]? with
    | some node => (delitem q k).map (fun q' => ((node.key, node.value), q'))
    | none => .error .indexError

/-- Fuel-indexed loop: read the top entry, then remove it by key, until the
queue is empty.  The fuel is instantiated with the heap length in `popAll`. -/
def popAllFuel : Nat → PQ K V P → List (Node K V P)
  | 0, _ => []
  | fuel + 1, q =>
    match q.heap with
    | [] => []
    | top :: _ =>
      match delitem q top.key with
      | .ok q' => top :: popAllFuel fuel q'
      | .error _ => []

/-- Repeatedly "read the top item, then remove it by key" until empty
(`topitem q` is `.ok (top.key, top.value)` exactly when the heap head is
`top`). -/
def popAll (q : PQ K V P) : List (Node K V P) :=
  popAllFuel q.heap.length q

/-- The heap-order invariant: no entry strictly precedes its parent. -/
def heapInv (q : PQ K V P) : Prop :=
  ∀ c : Nat, (hc : c < q.heap.length) → c ≠ 0 →
    q.precedes (q.heap.get ⟨c, hc⟩).prio
      (q.heap.get ⟨(c - 1) / 2, Nat.lt_of_le_of_lt
        (Nat.le_trans (Nat.div_le_self _ _) (Nat.sub_le _ _)) hc⟩).prio = false

/-- The index-consistency invariant: the position map and the heap array are
in lock-step (every binding points at the entry carrying its key, every heap
entry's key is bound to its index, and the map binds each key at most once). -/
def indexInv (q : PQ K V P) : Prop :=
  (∀ e ∈ q.position, (q.heap[e.2]?).map Node.key = some e.1) ∧
  (∀ i : Nat, (h : i < q.heap.length) →
    lookupPos q.position (q.heap.get ⟨i, h⟩).key = some i) ∧
  (q.position.map Prod.fst).Nodup

/-- Transitivity of the configured comparator (spec 3: priorities are totally
ordered by `precedes`). -/
def TransB (pr : P → P → Bool) : Prop :=
  ∀ a b c, pr a b = true → pr b c = true → pr a c = true

/-- Asymmetry of the configured comparator. -/
def AsymmB (pr : P → P → Bool) : Prop :=
  ∀ a b, pr a b = true → pr b a = false

/-- Transitivity of non-precedence (ties are transitive): together with
`TransB` and `AsymmB` this makes `precedes` a strict weak order, which holds
for the default `operator.lt` on a linearly ordered type. -/
def NegTransB (pr : P → P → Bool) : Prop :=
  ∀ a b c, pr a b = false → pr b c = false → pr a c = false

/-- The single heap-order edge at `c` (vacuous when `c` or its parent is out
of range): the entry at `c` does not strictly precede the entry at its
parent `(c - 1) / 2`. -/
def okUp (q : PQ K V P) (c : Nat) : Prop :=
  ∀ nc np : Node K V P, q.heap[c]? = some nc →
    q.heap[(c - 1) / 2]? = some np → q.precedes nc.prio np.prio = false

/-- The entry at `c` does not strictly precede the entry at the parent of
`pos` (used to carry "children of the hole are dominated by the hole's
parent" through the restoring loops). -/
def okOver (q : PQ K V P) (c pos : Nat) : Prop :=
  ∀ nc np : Node K V P, q.heap[c]? = some nc →
    q.heap[(pos - 1) / 2]? = some np → q.precedes nc.prio np.prio = false

deriving instance DecidableEq for Except

instance decHeapInv [DecidableEq P] (q : PQ K V P) : Decidable (heapInv q) := by
  unfold heapInv
  infer_instance

instance decIndexInv (q : PQ K V P) : Decidable (indexInv q) := by
  unfold indexInv
  infer_instance

/-! ### Association-list lemmas (the `_position` dict) -/

theorem lookupPos_setPos_self (m : List (K × Nat)) (k : K) (n : Nat) :
    lookupPos (setPos m k n) k = some n := by
  induction m with
  | nil => simp [setPos, lookupPos]
  | cons e rest ih =>
    obtain ⟨k', v⟩ := e
    by_cases h : k' = k <;> simp [setPos, h, lookupPos, ih]

theorem lookupPos_setPos_ne (m : List (K × Nat)) (k k' : K) (n : Nat)
    (h : k' ≠ k) : lookupPos (setPos m k n) k' = lookupPos m k' := by
  induction m with
  | nil => simp [setPos, lookupPos, Ne.symm h]
  | cons e rest ih =>
    obtain ⟨k'', v⟩ := e
    by_cases h2 : k'' = k
    · subst h2
      simp [setPos, lookupPos, Ne.symm h]
    · simp only [setPos, if_neg h2, lookupPos]
      by_cases h3 : k'' = k' <;> simp [h3, ih]

theorem lookupPos_delPos_ne (m : List (K × Nat)) (k k' : K)
    (h : k' ≠ k) : lookupPos (delPos m k) k' = lookupPos m k' := by
  induction m with
  | nil => simp [delPos]
  | cons e rest ih =>
    obtain ⟨k'', v⟩ := e
    by_cases h2 : k'' = k
    · subst h2
      simp [delPos, lookupPos, Ne.symm h]
    · simp only [delPos, if_neg h2, lookupPos]
      by_cases h3 : k'' = k' <;> simp [h3, ih]

theorem lookupPos_eq_none_iff (m : List (K × Nat)) (k : K) :
    lookupPos m k = none ↔ ∀ p, (k, p) ∉ m := by
  induction m with
  | nil => simp [lookupPos]
  | cons e rest ih =>
    obtain ⟨k', v⟩ := e
    by_cases h : k' = k
    · subst h
      simp only [lookupPos, if_pos rfl]
      constructor
      · intro h2
        cases h2
      · intro h2
        exact absurd (List.mem_cons_self _ _) (h2 v)
    · simp only [lookupPos, if_neg h, ih, List.mem_cons]
      constructor
      · intro h2 p h3
        rcases h3 with h3 | h3
        · exact h (congrArg Prod.fst h3).symm
        · exact h2 p h3
      · intro h2 p h3
        exact h2 p (Or.inr h3)

theorem mem_of_lookupPos_eq_some (m : List (K × Nat)) (k : K) (p : Nat)
    (h : lookupPos m k = some p) : (k, p) ∈ m := by
  induction m with
  | nil => simp [lookupPos] at h
  | cons e rest ih =>
    obtain ⟨k', v⟩ := e
    by_cases h2 : k' = k
    · subst h2
      simp [lookupPos] at h
      simp [h]
    · simp [lookupPos, h2] at h
      exact List.mem_cons_of_mem _ (ih h)

theorem lookupPos_isSome_of_mem (m : List (K × Nat)) (k : K) (p : Nat)
    (h : (k, p) ∈ m) : (lookupPos m k).isSome := by
  cases h2 : lookupPos m k with
  | none => exact absurd h ((lookupPos_eq_none_iff m k).mp h2 p)
  | some q => rfl

theorem mem_keys_setPos (m : List (K × Nat)) (k a : K) (n p : Nat)
    (h : (a, p) ∈ setPos m k n) : (∃ r, (a, r) ∈ m) ∨ a = k := by
  induction m with
  | nil =>
    simp [setPos] at h
    exact Or.inr h.1
  | cons e rest ih =>
    obtain ⟨k', v⟩ := e
    by_cases h2 : k' = k
    · subst h2
      simp only [setPos, if_pos rfl] at h
      rcases List.mem_cons.mp h with h3 | h3
      · exact Or.inr (congrArg Prod.fst h3)
      · exact Or.inl ⟨p, List.mem_cons_of_mem _ h3⟩
    · simp only [setPos, if_neg h2] at h
      rcases List.mem_cons.mp h with h3 | h3
      · exact Or.inl ⟨p, by rw [h3]; exact List.mem_cons_self _ _⟩
      · rcases ih h3 with ⟨r, h4⟩ | h4
        · exact Or.inl ⟨r, List.mem_cons_of_mem _ h4⟩
        · exact Or.inr h4

theorem nodup_keys_setPos (m : List (K × Nat)) (k : K) (n : Nat)
    (h : (m.map Prod.fst).Nodup) : ((setPos m k n).map Prod.fst).Nodup := by
  induction m with
  | nil => simp [setPos]
  | cons e rest ih =>
    obtain ⟨k', v⟩ := e
    simp only [List.map_cons, List.nodup_cons] at h
    by_cases h2 : k' = k
    · subst h2
      simpa [setPos] using h
    · simp only [setPos, if_neg h2, List.map_cons, List.nodup_cons]
      refine ⟨fun h3 => ?_, ih h.2⟩
      obtain ⟨⟨a, r⟩, h4, h5⟩ := List.mem_map.mp h3
      simp only at h5
      rw [h5] at h4
      rcases mem_keys_setPos rest k k' n r h4 with ⟨r', h6⟩ | h6
      · exact h.1 (List.mem_map.mpr ⟨(k', r'), h6, rfl⟩)
      · exact h2 h6

theorem keys_delPos_sublist (m : List (K × Nat)) (k : K) :
    List.Sublist ((delPos m k).map Prod.fst) (m.map Prod.fst) := by
  induction m with
  | nil => simp [delPos]
  | cons e rest ih =>
    obtain ⟨k', v⟩ := e
    by_cases h2 : k' = k
    · simp only [delPos, if_pos h2, List.map_cons]
      exact List.sublist_cons_self k' (rest.map Prod.fst)
    · simpa [delPos, h2] using ih.cons₂ k'

theorem nodup_keys_delPos (m : List (K × Nat)) (k : K)
    (h : (m.map Prod.fst).Nodup) : ((delPos m k).map Prod.fst).Nodup :=
  h.sublist (keys_delPos_sublist m k)

theorem lookupPos_delPos_self (m : List (K × Nat)) (k : K)
    (h : (m.map Prod.fst).Nodup) : lookupPos (delPos m k) k = none := by
  induction m with
  | nil => simp [delPos, lookupPos]
  | cons e rest ih =>
    obtain ⟨k', v⟩ := e
    simp only [List.map_cons, List.nodup_cons] at h
    by_cases h2 : k' = k
    · subst h2
      rw [delPos, if_pos rfl, lookupPos_eq_none_iff]
      intro p h3
      exact h.1 (List.mem_map.mpr ⟨(k', p), h3, rfl⟩)
    · simpa [delPos, h2, lookupPos] using ih h.2

theorem mem_delPos (m : List (K × Nat)) (k : K) (e : K × Nat)
    (h : e ∈ delPos m k) : e ∈ m := by
  induction m with
  | nil => simpa [delPos] using h
  | cons e' rest ih =>
    obtain ⟨k', v⟩ := e'
    by_cases h2 : k' = k
    · simp only [delPos, if_pos h2] at h
      exact List.mem_cons_of_mem _ h
    · simp only [delPos, if_neg h2] at h
      rcases List.mem_cons.mp h with h3 | h3
      · simp [h3]
      · exact List.mem_cons_of_mem _ (ih h3)

theorem mem_setPos (m : List (K × Nat)) (k : K) (n : Nat) (e : K × Nat)
    (hnd : (m.map Prod.fst).Nodup) (h : e ∈ setPos m k n) :
    e = (k, n) ∨ (e ∈ m ∧ e.1 ≠ k) := by
  induction m with
  | nil =>
    simp [setPos] at h
    exact Or.inl h
  | cons e' rest ih =>
    obtain ⟨k', v⟩ := e'
    simp only [List.map_cons, List.nodup_cons] at hnd
    by_cases h2 : k' = k
    · subst h2
      simp only [setPos, if_pos rfl] at h
      rcases List.mem_cons.mp h with h3 | h3
      · exact Or.inl h3
      · refine Or.inr ⟨List.mem_cons_of_mem _ h3, fun h4 => ?_⟩
        exact hnd.1 (List.mem_map.mpr ⟨e, h3, h4⟩)
    · simp only [setPos, if_neg h2] at h
      rcases List.mem_cons.mp h with h3 | h3
      · exact Or.inr ⟨by rw [h3]; exact List.mem_cons_self _ _, by rw [h3]; exact h2⟩
      · rcases ih hnd.2 h3 with h4 | h4
        · exact Or.inl h4
        · exact Or.inr ⟨List.mem_cons_of_mem _ h4.1, h4.2⟩

/-! ### A permutation helper for in-place swaps -/

theorem cons_set_perm {A : Type} (l : List A) (n : Nat) (x a : A)
    (h : l[n]? = some a) : List.Perm (a :: l.set n x) (x :: l) := by
  induction l generalizing n with
  | nil => simp at h
  | cons y ys ih =>
    cases n with
    | zero =>
      simp only [List.getElem?_cons_zero, Option.some_inj] at h
      subst h
      exact List.Perm.swap _ _ _
    | succ n =>
      simp only [List.getElem?_cons_succ] at h
      simp only [List.set_cons_succ]
      refine List.Perm.trans (List.Perm.swap y a (ys.set n x)) ?_
      refine List.Perm.trans (List.Perm.cons y (ih n h)) ?_
      exact List.Perm.swap x y ys

theorem set_set_swap_perm {A : Type} (l : List A) (i j : Nat) (a b : A)
    (ha : l[i]? = some a) (hb : l[j]? = some b) (hij : i ≠ j) :
    List.Perm ((l.set i b).set j a) l := by
  have h1 : List.Perm (a :: l.set i b) (b :: l) := cons_set_perm l i b a ha
  have hb' : (l.set i b)[j]? = some b := by
    rw [List.getElem?_set_ne hij]
    exact hb
  have h2 : List.Perm (b :: (l.set i b).set j a) (a :: l.set i b) :=
    cons_set_perm (l.set i b) j a b hb'
  exact (h2.trans h1).cons_inv

/-! ### Lemmas about `swapNodes` -/

theorem swapNodes_eq (q : PQ K V P) (i j : Nat) (a b : Node K V P)
    (ha : q.heap[i]? = some a) (hb : q.heap[j]? = some b) :
    swapNodes q i j =
      { q with
        heap := (q.heap.set i b).set j a
        position := setPos (setPos q.position b.key i) a.key j } := by
  unfold swapNodes
  rw [ha, hb]

theorem swapNodes_keyfn (q : PQ K V P) (i j : Nat) :
    (swapNodes q i j).keyfn = q.keyfn := by
  unfold swapNodes
  split <;> rfl

theorem swapNodes_precedes (q : PQ K V P) (i j : Nat) :
    (swapNodes q i j).precedes = q.precedes := by
  unfold swapNodes
  split <;> rfl

theorem swapNodes_length (q : PQ K V P) (i j : Nat) :
    (swapNodes q i j).heap.length = q.heap.length := by
  unfold swapNodes
  split <;> simp

theorem swapNodes_getElem?_snd (q : PQ K V P) (i j : Nat) (a b : Node K V P)
    (ha : q.heap[i]? = some a) (hb : q.heap[j]? = some b) :
    (swapNodes q i j).heap[j]? = some a := by
  rw [swapNodes_eq q i j a b ha hb]
  have hj : j < q.heap.length := (List.getElem?_eq_some_iff.mp hb).1
  simp [hj]

theorem swapNodes_getElem?_fst (q : PQ K V P) (i j : Nat) (a b : Node K V P)
    (ha : q.heap[i]? = some a) (hb : q.heap[j]? = some b) (hij : i ≠ j) :
    (swapNodes q i j).heap[i]? = some b := by
  rw [swapNodes_eq q i j a b ha hb]
  have hi : i < q.heap.length := (List.getElem?_eq_some_iff.mp ha).1
  simp only
  rw [List.getElem?_set_ne (Ne.symm hij)]
  simp [hi]

theorem swapNodes_getElem?_other (q : PQ K V P) (i j t : Nat)
    (a b : Node K V P) (ha : q.heap[i]? = some a) (hb : q.heap[j]? = some b)
    (hti : t ≠ i) (htj : t ≠ j) :
    (swapNodes q i j).heap[t]? = q.heap[t]? := by
  rw [swapNodes_eq q i j a b ha hb]
  simp only
  rw [List.getElem?_set_ne (Ne.symm htj), List.getElem?_set_ne (Ne.symm hti)]

theorem swapNodes_heap_perm (q : PQ K V P) (i j : Nat) (a b : Node K V P)
    (ha : q.heap[i]? = some a) (hb : q.heap[j]? = some b) (hij : i ≠ j) :
    List.Perm (swapNodes q i j).heap q.heap := by
  rw [swapNodes_eq q i j a b ha hb]
  exact set_set_swap_perm q.heap i j a b ha hb hij

/-! ### Consequences of the invariants -/

theorem indexInv_lookup {q : PQ K V P} (hI : indexInv q) {k : K} {p : Nat}
    (h : lookupPos q.position k = some p) :
    ∃ node : Node K V P, q.heap[p]? = some node ∧ node.key = k := by
  have hmem := mem_of_lookupPos_eq_some q.position k p h
  have h2 := hI.1 (k, p) hmem
  cases h3 : q.heap[p]? with
  | none => rw [h3] at h2; cases h2
  | some node =>
    rw [h3] at h2
    exact ⟨node, rfl, by simpa using h2⟩

theorem indexInv_lookup_of_getElem? {q : PQ K V P} (hI : indexInv q) {t : Nat}
    {node : Node K V P} (h : q.heap[t]? = some node) :
    lookupPos q.position node.key = some t := by
  obtain ⟨ht, hget⟩ := List.getElem?_eq_some_iff.mp h
  have := hI.2.1 t ht
  rw [List.get_eq_getElem, hget] at this
  exact this

theorem heapInv_iff (q : PQ K V P) :
    heapInv q ↔ ∀ (c : Nat) (nc np : Node K V P), c ≠ 0 →
      q.heap[c]? = some nc → q.heap[(c - 1) / 2]? = some np →
      q.precedes nc.prio np.prio = false := by
  constructor
  · intro h c nc np hc0 hnc hnp
    obtain ⟨hc, hgc⟩ := List.getElem?_eq_some_iff.mp hnc
    obtain ⟨hp, hgp⟩ := List.getElem?_eq_some_iff.mp hnp
    have := h c hc hc0
    rw [List.get_eq_getElem, List.get_eq_getElem, hgc, hgp] at this
    exact this
  · intro h c hc hc0
    have hp : (c - 1) / 2 < q.heap.length :=
      Nat.lt_of_le_of_lt (Nat.le_trans (Nat.div_le_self _ _) (Nat.sub_le _ _)) hc
    exact h c _ _ hc0 (by simp [List.get_eq_getElem]) (by simp [List.get_eq_getElem])

theorem indexInv_of_parts (q : PQ K V P)
    (h1 : ∀ e ∈ q.position, (q.heap[e.2]?).map Node.key = some e.1)
    (h2 : ∀ (t : Nat) (node : Node K V P), q.heap[t]? = some node →
      lookupPos q.position node.key = some t)
    (h3 : (q.position.map Prod.fst).Nodup) : indexInv q := by
  refine ⟨h1, ?_, h3⟩
  intro i h
  exact h2 i _ (by simp [List.get_eq_getElem])

theorem swapNodes_indexInv (q : PQ K V P) (i j : Nat) (a b : Node K V P)
    (ha : q.heap[i]? = some a) (hb : q.heap[j]? = some b) (hij : i ≠ j)
    (hI : indexInv q) : indexInv (swapNodes q i j) := by
  have hi : i < q.heap.length := (List.getElem?_eq_some_iff.mp ha).1
  have hj : j < q.heap.length := (List.getElem?_eq_some_iff.mp hb).1
  have hlka : lookupPos q.position a.key = some i := indexInv_lookup_of_getElem? hI ha
  have hlkb : lookupPos q.position b.key = some j := indexInv_lookup_of_getElem? hI hb
  have hab : a.key ≠ b.key := by
    intro h
    rw [h, hlkb] at hlka
    exact hij (Option.some_inj.mp hlka).symm
  have hpos : (swapNodes q i j).position = setPos (setPos q.position b.key i) a.key j := by
    rw [swapNodes_eq q i j a b ha hb]
  have hnd0 : (q.position.map Prod.fst).Nodup := hI.2.2
  have hnd1 : ((setPos q.position b.key i).map Prod.fst).Nodup :=
    nodup_keys_setPos _ _ _ hnd0
  refine indexInv_of_parts _ ?_ ?_ ?_
  · intro e he
    rw [hpos] at he
    rcases mem_setPos _ _ _ _ hnd1 he with h1 | ⟨h1, h1k⟩
    · subst h1
      rw [swapNodes_getElem?_snd q i j a b ha hb]
      rfl
    · rcases mem_setPos _ _ _ _ hnd0 h1 with h2 | ⟨h2, h2k⟩
      · subst h2
        rw [swapNodes_getElem?_fst q i j a b ha hb hij]
        rfl
      · have horig := hI.1 e h2
        have hei : e.2 ≠ i := by
          intro h3
          rw [h3, ha] at horig
          exact h1k (Option.some_inj.mp horig).symm
        have hej : e.2 ≠ j := by
          intro h3
          rw [h3, hb] at horig
          exact h2k (Option.some_inj.mp horig).symm
        rw [swapNodes_getElem?_other q i j e.2 a b ha hb hei hej]
        exact horig
  · intro t node hget
    by_cases htj : t = j
    · rw [htj] at hget ⊢
      rw [swapNodes_getElem?_snd q i j a b ha hb] at hget
      rw [← Option.some_inj.mp hget, hpos]
      exact lookupPos_setPos_self _ _ _
    · by_cases hti : t = i
      · rw [hti] at hget ⊢
        rw [swapNodes_getElem?_fst q i j a b ha hb hij] at hget
        rw [← Option.some_inj.mp hget, hpos]
        rw [lookupPos_setPos_ne _ _ _ _ (Ne.symm hab)]
        exact lookupPos_setPos_self _ _ _
      · rw [swapNodes_getElem?_other q i j t a b ha hb hti htj] at hget
        have horig := indexInv_lookup_of_getElem? hI hget
        have hkt : node.key ≠ a.key := by
          intro h3
          rw [h3, hlka] at horig
          exact hti (Option.some_inj.mp horig).symm
        have hkt' : node.key ≠ b.key := by
          intro h3
          rw [h3, hlkb] at horig
          exact htj (Option.some_inj.mp horig).symm
        rw [hpos, lookupPos_setPos_ne _ _ _ _ hkt, lookupPos_setPos_ne _ _ _ _ hkt']
        exact horig
  · rw [hpos]
    exact nodup_keys_setPos _ _ _ hnd1

/-! ### Preservation lemmas for `swim` -/

theorem parent_lt {pos : Nat} (h : pos ≠ 0) : (pos - 1) / 2 < pos :=
  Nat.lt_of_le_of_lt (Nat.div_le_self _ _)
    (Nat.sub_lt (Nat.pos_of_ne_zero h) Nat.one_pos)

theorem swim_keyfn (q : PQ K V P) (pos : Nat) : (swim q pos).keyfn = q.keyfn := by
  induction q, pos using swim.induct with
  | case1 q => rw [swim.eq_def]; simp
  | case2 q pos h0 a b hb ha hpr ih =>
    rw [swim.eq_def]
    simp only [dif_neg h0, ha, hb, if_pos hpr]
    rw [ih, swapNodes_keyfn]
  | case3 q pos h0 a b hb ha hpr =>
    rw [swim.eq_def]
    simp only [dif_neg h0, ha, hb, if_neg hpr]
  | case4 q pos h0 hnone =>
    rw [swim.eq_def]
    simp only [dif_neg h0]

theorem swim_precedes (q : PQ K V P) (pos : Nat) :
    (swim q pos).precedes = q.precedes := by
  induction q, pos using swim.induct with
  | case1 q => rw [swim.eq_def]; simp
  | case2 q pos h0 a b hb ha hpr ih =>
    rw [swim.eq_def]
    simp only [dif_neg h0, ha, hb, if_pos hpr]
    rw [ih, swapNodes_precedes]
  | case3 q pos h0 a b hb ha hpr =>
    rw [swim.eq_def]
    simp only [dif_neg h0, ha, hb, if_neg hpr]
  | case4 q pos h0 hnone =>
    rw [swim.eq_def]
    simp only [dif_neg h0]

theorem swim_length (q : PQ K V P) (pos : Nat) :
    (swim q pos).heap.length = q.heap.length := by
  induction q, pos using swim.induct with
  | case1 q => rw [swim.eq_def]; simp
  | case2 q pos h0 a b hb ha hpr ih =>
    rw [swim.eq_def]
    simp only [dif_neg h0, ha, hb, if_pos hpr]
    rw [ih, swapNodes_length]
  | case3 q pos h0 a b hb ha hpr =>
    rw [swim.eq_def]
    simp only [dif_neg h0, ha, hb, if_neg hpr]
  | case4 q pos h0 hnone =>
    rw [swim.eq_def]
    simp only [dif_neg h0]

theorem swim_heap_perm (q : PQ K V P) (pos : Nat) :
    List.Perm (swim q pos).heap q.heap := by
  induction q, pos using swim.induct with
  | case1 q => rw [swim.eq_def]; simp
  | case2 q pos h0 a b hb ha hpr ih =>
    rw [swim.eq_def]
    simp only [dif_neg h0, ha, hb, if_pos hpr]
    exact ih.trans
      (swapNodes_heap_perm q pos _ a b ha hb (Nat.ne_of_gt (parent_lt h0)))
  | case3 q pos h0 a b hb ha hpr =>
    rw [swim.eq_def]
    simp only [dif_neg h0, ha, hb, if_neg hpr]
    exact List.Perm.refl _
  | case4 q pos h0 hnone =>
    rw [swim.eq_def]
    simp only [dif_neg h0]
    cases hx : q.heap[pos]? with
    | none => exact List.Perm.refl _
    | some x =>
      cases hp : q.heap[(pos - 1) / 2]? with
      | none => exact List.Perm.refl _
      | some p => exact (hnone x p hx hp).elim

theorem swim_indexInv (q : PQ K V P) (pos : Nat) (hI : indexInv q) :
    indexInv (swim q pos) := by
  induction q, pos using swim.induct with
  | case1 q => rw [swim.eq_def]; simpa
  | case2 q pos h0 a b hb ha hpr ih =>
    rw [swim.eq_def]
    simp only [dif_neg h0, ha, hb, if_pos hpr]
    exact ih (swapNodes_indexInv q pos _ a b ha hb (Nat.ne_of_gt (parent_lt h0)) hI)
  | case3 q pos h0 a b hb ha hpr =>
    rw [swim.eq_def]
    simp only [dif_neg h0, ha, hb, if_neg hpr]
    exact hI
  | case4 q pos h0 hnone =>
    rw [swim.eq_def]
    simp only [dif_neg h0]
    cases hx : q.heap[pos]? with
    | none => exact hI
    | some x =>
      cases hp : q.heap[(pos - 1) / 2]? with
      | none => exact hI
      | some p => exact (hnone x p hx hp).elim

/-! ### Preservation lemmas for `sink` -/

theorem winner_gt (q : PQ K V P) (pos : Nat) : pos < winner q pos := by
  unfold winner
  split <;> (try split) <;> omega

theorem sink_keyfn (q : PQ K V P) (pos : Nat) : (sink q pos).keyfn = q.keyfn := by
  induction q, pos using sink.induct with
  | case1 q pos hW a b hxb hwa hpr ih =>
    rw [sink.eq_def]
    simp only [dif_pos hW, hwa, hxb, if_pos hpr]
    rw [ih, swapNodes_keyfn]
  | case2 q pos hW a b hxb hwa hpr =>
    rw [sink.eq_def]
    simp only [dif_pos hW, hwa, hxb, if_neg hpr]
  | case3 q pos hW hnone =>
    rw [sink.eq_def]
    simp only [dif_pos hW]
  | case4 q pos hW =>
    rw [sink.eq_def]
    simp only [dif_neg hW]

theorem sink_precedes (q : PQ K V P) (pos : Nat) :
    (sink q pos).precedes = q.precedes := by
  induction q, pos using sink.induct with
  | case1 q pos hW a b hxb hwa hpr ih =>
    rw [sink.eq_def]
    simp only [dif_pos hW, hwa, hxb, if_pos hpr]
    rw [ih, swapNodes_precedes]
  | case2 q pos hW a b hxb hwa hpr =>
    rw [sink.eq_def]
    simp only [dif_pos hW, hwa, hxb, if_neg hpr]
  | case3 q pos hW hnone =>
    rw [sink.eq_def]
    simp only [dif_pos hW]
  | case4 q pos hW =>
    rw [sink.eq_def]
    simp only [dif_neg hW]

theorem sink_length (q : PQ K V P) (pos : Nat) :
    (sink q pos).heap.length = q.heap.length := by
  induction q, pos using sink.induct with
  | case1 q pos hW a b hxb hwa hpr ih =>
    rw [sink.eq_def]
    simp only [dif_pos hW, hwa, hxb, if_pos hpr]
    rw [ih, swapNodes_length]
  | case2 q pos hW a b hxb hwa hpr =>
    rw [sink.eq_def]
    simp only [dif_pos hW, hwa, hxb, if_neg hpr]
  | case3 q pos hW hnone =>
    rw [sink.eq_def]
    simp only [dif_pos hW]
  | case4 q pos hW =>
    rw [sink.eq_def]
    simp only [dif_neg hW]

theorem sink_heap_perm (q : PQ K V P) (pos : Nat) :
    List.Perm (sink q pos).heap q.heap := by
  induction q, pos using sink.induct with
  | case1 q pos hW a b hxb hwa hpr ih =>
    rw [sink.eq_def]
    simp only [dif_pos hW, hwa, hxb, if_pos hpr]
    exact ih.trans
      (swapNodes_heap_perm q pos _ b a hxb hwa (Nat.ne_of_lt (winner_gt q pos)))
  | case2 q pos hW a b hxb hwa hpr =>
    rw [sink.eq_def]
    simp only [dif_pos hW, hwa, hxb, if_neg hpr]
    exact List.Perm.refl _
  | case3 q pos hW hnone =>
    rw [sink.eq_def]
    simp only [dif_pos hW]
    cases hw : q.heap[winner q pos]? with
    | none => exact List.Perm.refl _
    | some w =>
      cases hx : q.heap[pos]? with
      | none => exact List.Perm.refl _
      | some x => exact (hnone w x hw hx).elim
  | case4 q pos hW =>
    rw [sink.eq_def]
    simp only [dif_neg hW]
    exact List.Perm.refl _

theorem sink_indexInv (q : PQ K V P) (pos : Nat) (hI : indexInv q) :
    indexInv (sink q pos) := by
  induction q, pos using sink.induct with
  | case1 q pos hW a b hxb hwa hpr ih =>
    rw [sink.eq_def]
    simp only [dif_pos hW, hwa, hxb, if_pos hpr]
    exact ih (swapNodes_indexInv q pos _ b a hxb hwa
      (Nat.ne_of_lt (winner_gt q pos)) hI)
  | case2 q pos hW a b hxb hwa hpr =>
    rw [sink.eq_def]
    simp only [dif_pos hW, hwa, hxb, if_neg hpr]
    exact hI
  | case3 q pos hW hnone =>
    rw [sink.eq_def]
    simp only [dif_pos hW]
    cases hw : q.heap[winner q pos]? with
    | none => exact hI
    | some w =>
      cases hx : q.heap[pos]? with
      | none => exact hI
      | some x => exact (hnone w x hw hx).elim
  | case4 q pos hW =>
    rw [sink.eq_def]
    simp only [dif_neg hW]
    exact hI

/-! ### Preservation lemmas for `reheapify` -/

theorem reheapify_keyfn (q : PQ K V P) (pos : Nat) :
    (reheapify q pos).keyfn = q.keyfn := by
  unfold reheapify
  rw [swim_keyfn, sink_keyfn]

theorem reheapify_precedes (q : PQ K V P) (pos : Nat) :
    (reheapify q pos).precedes = q.precedes := by
  unfold reheapify
  rw [swim_precedes, sink_precedes]

theorem reheapify_length (q : PQ K V P) (pos : Nat) :
    (reheapify q pos).heap.length = q.heap.length := by
  unfold reheapify
  rw [swim_length, sink_length]

theorem reheapify_heap_perm (q : PQ K V P) (pos : Nat) :
    List.Perm (reheapify q pos).heap q.heap := by
  unfold reheapify
  exact (swim_heap_perm _ _).trans (sink_heap_perm _ _)

theorem reheapify_indexInv (q : PQ K V P) (pos : Nat) (hI : indexInv q) :
    indexInv (reheapify q pos) :=
  swim_indexInv _ _ (sink_indexInv _ _ hI)

/-! ### Arithmetic facts about the implicit tree -/

theorem winner_cases (q : PQ K V P) (pos : Nat) :
    winner q pos = 2 * pos + 1 ∨ winner q pos = 2 * pos + 2 := by
  unfold winner
  split
  · split
    · exact Or.inr rfl
    · exact Or.inl rfl
  · exact Or.inl rfl

theorem winner_parent (q : PQ K V P) (pos : Nat) :
    (winner q pos - 1) / 2 = pos := by
  rcases winner_cases q pos with h | h <;> rw [h] <;> omega

theorem winner_ne_zero (q : PQ K V P) (pos : Nat) : winner q pos ≠ 0 := by
  rcases winner_cases q pos with h | h <;> omega

theorem child_eq {c pos : Nat} (hc : (c - 1) / 2 = pos) (hc0 : c ≠ 0) :
    c = 2 * pos + 1 ∨ c = 2 * pos + 2 := by
  omega

theorem heapInv_iff_okUp (q : PQ K V P) :
    heapInv q ↔ ∀ c, c ≠ 0 → okUp q c := by
  rw [heapInv_iff]
  constructor
  · intro h c hc0 nc np hnc hnp
    exact h c nc np hc0 hnc hnp
  · intro h c nc np hc0 hnc hnp
    exact h c hc0 nc np hnc hnp

/-! ### `swim` restores heap order -/

theorem swim_heapInv (q : PQ K V P) (pos : Nat)
    (hT : TransB q.precedes) (hA : AsymmB q.precedes) (hN : NegTransB q.precedes)
    (h1 : ∀ c, c ≠ 0 → c ≠ pos → okUp q c)
    (h2 : pos ≠ 0 → ∀ c, (c - 1) / 2 = pos → okOver q c pos) :
    heapInv (swim q pos) := by
  induction q, pos using swim.induct with
  | case1 q =>
    rw [swim.eq_def]
    simp only [dif_pos rfl]
    rw [heapInv_iff_okUp]
    intro c hc0
    exact h1 c hc0 hc0
  | case2 q pos h0 x p hb ha hpr ih =>
    -- `x` is the swimming entry at `pos`, `p` its parent entry at `pp`
    rw [swim.eq_def]
    simp only [dif_neg h0, ha, hb, if_pos hpr]
    have hppos : (pos - 1) / 2 < pos := parent_lt h0
    have hne : pos ≠ (pos - 1) / 2 := Nat.ne_of_gt hppos
    have hq'pos : (swapNodes q pos ((pos - 1) / 2)).heap[pos]? = some p :=
      swapNodes_getElem?_fst q pos _ x p ha hb hne
    have hq'pp : (swapNodes q pos ((pos - 1) / 2)).heap[(pos - 1) / 2]? = some x :=
      swapNodes_getElem?_snd q pos _ x p ha hb
    have hother : ∀ t, t ≠ pos → t ≠ (pos - 1) / 2 →
        (swapNodes q pos ((pos - 1) / 2)).heap[t]? = q.heap[t]? :=
      fun t h1t h2t => swapNodes_getElem?_other q pos _ t x p ha hb h1t h2t
    have hprec : (swapNodes q pos ((pos - 1) / 2)).precedes = q.precedes :=
      swapNodes_precedes q pos _
    refine ih (by rw [hprec]; exact hT) (by rw [hprec]; exact hA)
      (by rw [hprec]; exact hN) ?_ ?_
    · -- all edges except the one out of the parent slot hold after the swap
      intro c hc0 hcpp nc np hnc hnp
      rw [hprec]
      by_cases hcpos : c = pos
      · -- the displaced parent now at `pos`, against the swum entry above it
        subst hcpos
        rw [hq'pos] at hnc
        rw [hq'pp] at hnp
        rw [← Option.some_inj.mp hnc, ← Option.some_inj.mp hnp]
        exact hA x.prio p.prio hpr
      · by_cases hcchild : (c - 1) / 2 = pos
        · -- children of `pos` are dominated by the old parent entry
          rw [hother c hcpos (by omega)] at hnc
          rw [hcchild, hq'pos] at hnp
          rw [← Option.some_inj.mp hnp]
          exact h2 h0 c hcchild nc p hnc hb
        · by_cases hcsib : (c - 1) / 2 = (pos - 1) / 2
          · -- the sibling of `pos` against the swum entry
            rw [hother c hcpos (by omega)] at hnc
            rw [hcsib, hq'pp] at hnp
            rw [← Option.some_inj.mp hnp]
            have hold : q.precedes nc.prio p.prio = false :=
              h1 c hc0 hcpos nc p hnc (by rw [hcsib]; exact hb)
            by_contra hcon
            have hcon' : q.precedes nc.prio x.prio = true := by
              cases h3 : q.precedes nc.prio x.prio with
              | true => rfl
              | false => exact absurd h3 hcon
            have := hT nc.prio x.prio p.prio hcon' hpr
            rw [hold] at this
            cases this
          · -- untouched edges
            rw [hother c hcpos (by omega)] at hnc
            rw [hother _ hcchild hcsib] at hnp
            exact h1 c hc0 hcpos nc np hnc hnp
    · -- children of the parent slot are dominated by the grandparent entry
      intro hpp0 c hc nc np hnc hnp
      rw [hprec]
      have hgp1 : ((pos - 1) / 2 - 1) / 2 ≠ pos := by
        have := parent_lt hpp0
        omega
      have hgp2 : ((pos - 1) / 2 - 1) / 2 ≠ (pos - 1) / 2 :=
        Nat.ne_of_lt (parent_lt hpp0)
      rw [hother _ hgp1 hgp2] at hnp
      have hc0 : c ≠ 0 := by
        intro h
        rw [h] at hc
        simp at hc
        omega
      by_cases hcpos : c = pos
      · -- the displaced parent: its old edge to the grandparent
        subst hcpos
        rw [hq'pos] at hnc
        rw [← Option.some_inj.mp hnc]
        exact h1 _ hpp0 (Nat.ne_of_lt hppos) p np hb hnp
      · have hcpp2 : c ≠ (pos - 1) / 2 := by omega
        rw [hother c hcpos hcpp2] at hnc
        have hold1 : q.precedes nc.prio p.prio = false :=
          h1 c hc0 hcpos nc p hnc (by rw [hc]; exact hb)
        have hold2 : q.precedes p.prio np.prio = false :=
          h1 _ hpp0 (Nat.ne_of_lt hppos) p np hb hnp
        exact hN nc.prio p.prio np.prio hold1 hold2
  | case3 q pos h0 x p hb ha hpr =>
    rw [swim.eq_def]
    simp only [dif_neg h0, ha, hb, if_neg hpr]
    rw [heapInv_iff_okUp]
    intro c hc0
    by_cases hcpos : c = pos
    · subst hcpos
      intro nc np hnc hnp
      rw [ha] at hnc
      rw [hb] at hnp
      rw [← Option.some_inj.mp hnc, ← Option.some_inj.mp hnp]
      cases h3 : q.precedes x.prio p.prio with
      | true => exact absurd h3 hpr
      | false => rfl
    · exact h1 c hc0 hcpos
  | case4 q pos h0 hnone =>
    rw [swim.eq_def]
    simp only [dif_neg h0]
    rw [heapInv_iff_okUp]
    intro c hc0
    by_cases hcpos : c = pos
    · subst hcpos
      intro nc np hnc hnp
      exact (hnone nc np hnc hnp).elim
    · exact h1 c hc0 hcpos

/-! ### `sink` restores heap order -/

theorem winner_left_dominates (q : PQ K V P) (pos : Nat)
    (hA : AsymmB q.precedes) (a nc : Node K V P)
    (hwa : q.heap[winner q pos]? = some a) (c : Nat)
    (hcw : c ≠ winner q pos) (hc : (c - 1) / 2 = pos) (hc0 : c ≠ 0)
    (hnc : q.heap[c]? = some nc) : q.precedes nc.prio a.prio = false := by
  rcases winner_cases q pos with hw | hw
  · have hc2 : c = 2 * pos + 2 := by
      rcases child_eq hc hc0 with h | h
      · rw [hw] at hcw
        exact absurd h hcw
      · exact h
    rw [hc2] at hnc
    rw [hw] at hwa
    unfold winner at hw
    cases h1 : q.heap[2 * pos + 1]? with
    | none =>
      rw [h1] at hwa
      cases hwa
    | some cl =>
      cases h2 : q.heap[2 * pos + 2]? with
      | none =>
        rw [h2] at hnc
        cases hnc
      | some cr =>
        simp only [h1, h2] at hw
        rw [h1] at hwa
        rw [h2] at hnc
        rw [← Option.some_inj.mp hwa, ← Option.some_inj.mp hnc]
        by_cases hif : q.precedes cr.prio cl.prio = true
        · rw [if_pos hif] at hw
          omega
        · cases h3 : q.precedes cr.prio cl.prio with
          | true => exact absurd h3 hif
          | false => rfl
  · have hc1 : c = 2 * pos + 1 := by
      rcases child_eq hc hc0 with h | h
      · exact h
      · rw [hw] at hcw
        exact absurd h hcw
    rw [hc1] at hnc
    rw [hw] at hwa
    unfold winner at hw
    cases h1 : q.heap[2 * pos + 1]? with
    | none =>
      rw [h1] at hnc
      cases hnc
    | some cl =>
      cases h2 : q.heap[2 * pos + 2]? with
      | none =>
        simp only [h1, h2] at hw
        omega
      | some cr =>
        simp only [h1, h2] at hw
        rw [h2] at hwa
        rw [h1] at hnc
        rw [← Option.some_inj.mp hwa, ← Option.some_inj.mp hnc]
        by_cases hif : q.precedes cr.prio cl.prio = true
        · exact hA cr.prio cl.prio hif
        · rw [if_neg hif] at hw
          omega

theorem winner_oob (q : PQ K V P) (pos : Nat)
    (hW : ¬ winner q pos < q.heap.length) : q.heap.length ≤ 2 * pos + 1 := by
  by_contra h
  push_neg at h
  rcases winner_cases q pos with hw | hw
  · rw [hw] at hW
    omega
  · cases h2 : q.heap[2 * pos + 2]? with
    | some cr =>
      have h3 := (List.getElem?_eq_some_iff.mp h2).1
      rw [hw] at hW
      omega
    | none =>
      unfold winner at hw
      cases h1 : q.heap[2 * pos + 1]? with
      | none =>
        simp only [h1, h2] at hw
        omega
      | some cl =>
        simp only [h1, h2] at hw
        omega

theorem sink_stop (q : PQ K V P) (pos : Nat) (x : Node K V P)
    (hx : q.heap[pos]? = some x)
    (h : ∀ (c : Nat) (nc : Node K V P), (c - 1) / 2 = pos → c ≠ 0 →
      q.heap[c]? = some nc → q.precedes nc.prio x.prio = false) :
    sink q pos = q := by
  rw [sink.eq_def]
  by_cases hW : winner q pos < q.heap.length
  · simp only [dif_pos hW]
    have hwent : q.heap[winner q pos]? = some (q.heap.get ⟨winner q pos, hW⟩) := by
      simp [List.get_eq_getElem]
    have hfalse := h (winner q pos) _ (winner_parent q pos)
      (winner_ne_zero q pos) hwent
    simp only [hwent, hx, hfalse]
    simp
  · simp only [dif_neg hW]

theorem sink_heapInv (q : PQ K V P) (pos : Nat)
    (hT : TransB q.precedes) (hA : AsymmB q.precedes) (hN : NegTransB q.precedes)
    (h1 : ∀ c, c ≠ 0 → (c - 1) / 2 ≠ pos → okUp q c)
    (h2 : pos ≠ 0 → ∀ c, (c - 1) / 2 = pos → okOver q c pos) :
    heapInv (sink q pos) := by
  induction q, pos using sink.induct with
  | case1 q pos hW w x hxb hwa hpr ih =>
    rw [sink.eq_def]
    simp only [dif_pos hW, hwa, hxb, if_pos hpr]
    have hposW : pos < winner q pos := winner_gt q pos
    have hne : pos ≠ winner q pos := Nat.ne_of_lt hposW
    have hq'pos : (swapNodes q pos (winner q pos)).heap[pos]? = some w :=
      swapNodes_getElem?_fst q pos _ x w hxb hwa hne
    have hq'W : (swapNodes q pos (winner q pos)).heap[winner q pos]? = some x :=
      swapNodes_getElem?_snd q pos _ x w hxb hwa
    have hother : ∀ t, t ≠ pos → t ≠ winner q pos →
        (swapNodes q pos (winner q pos)).heap[t]? = q.heap[t]? :=
      fun t h1t h2t => swapNodes_getElem?_other q pos _ t x w hxb hwa h1t h2t
    have hprec : (swapNodes q pos (winner q pos)).precedes = q.precedes :=
      swapNodes_precedes q pos _
    have hWpar : (winner q pos - 1) / 2 = pos := winner_parent q pos
    refine ih (by rw [hprec]; exact hT) (by rw [hprec]; exact hA)
      (by rw [hprec]; exact hN) ?_ ?_
    · intro c hc0 hcW nc np hnc hnp
      rw [hprec]
      by_cases hcpos : c = pos
      · -- the winner moved to `pos`: edge to the old grandparent
        subst hcpos
        have hpos0 : c ≠ 0 := hc0
        have hgp1 : (c - 1) / 2 ≠ c := Nat.ne_of_lt (parent_lt hc0)
        have hgp2 : (c - 1) / 2 ≠ winner q c := by
          have := parent_lt hc0
          have := winner_gt q c
          omega
        rw [hother _ (Nat.ne_of_lt (parent_lt hc0)) hgp2] at hnp
        rw [hq'pos] at hnc
        rw [← Option.some_inj.mp hnc]
        exact h2 hc0 (winner q c) hWpar w np hwa hnp
      · by_cases hcw : c = winner q pos
        · -- the sunk entry at the winner slot, against the winner above it
          subst hcw
          rw [hq'W] at hnc
          rw [hWpar, hq'pos] at hnp
          rw [← Option.some_inj.mp hnc, ← Option.some_inj.mp hnp]
          exact hA w.prio x.prio hpr
        · by_cases hcchild : (c - 1) / 2 = pos
          · -- the losing sibling, against the winner now at `pos`
            rw [hother c hcpos hcw] at hnc
            rw [hcchild, hq'pos] at hnp
            rw [← Option.some_inj.mp hnp]
            exact winner_left_dominates q pos hA w nc hwa c hcw hcchild hc0 hnc
          · -- untouched edges
            have hnpW : (c - 1) / 2 ≠ winner q pos := hcW
            rw [hother c hcpos hcw] at hnc
            rw [hother _ hcchild hnpW] at hnp
            exact h1 c hc0 hcchild nc np hnc hnp
    · intro hW0 c hc nc np hnc hnp
      rw [hprec]
      have hcgt : winner q pos < c := by omega
      have hc0 : c ≠ 0 := by omega
      rw [hother c (by omega) (by omega)] at hnc
      rw [hWpar, hq'pos] at hnp
      rw [← Option.some_inj.mp hnp]
      have : (c - 1) / 2 ≠ pos := by omega
      exact h1 c hc0 this nc w hnc (by rw [hc]; exact hwa)
  | case2 q pos hW w x hxb hwa hpr =>
    rw [sink.eq_def]
    simp only [dif_pos hW, hwa, hxb, if_neg hpr]
    rw [heapInv_iff_okUp]
    intro c hc0
    by_cases hcchild : (c - 1) / 2 = pos
    · intro nc np hnc hnp
      rw [hcchild, hxb] at hnp
      rw [← Option.some_inj.mp hnp]
      by_cases hcw : c = winner q pos
      · rw [hcw, hwa] at hnc
        rw [← Option.some_inj.mp hnc]
        cases h3 : q.precedes w.prio x.prio with
        | true => exact absurd h3 hpr
        | false => rfl
      · have hlose := winner_left_dominates q pos hA w nc hwa c hcw hcchild hc0 hnc
        have hwx : q.precedes w.prio x.prio = false := by
          cases h3 : q.precedes w.prio x.prio with
          | true => exact absurd h3 hpr
          | false => rfl
        exact hN nc.prio w.prio x.prio hlose hwx
    · exact h1 c hc0 hcchild
  | case3 q pos hW hnone =>
    have hposlt : pos < q.heap.length := Nat.lt_trans (winner_gt q pos) hW
    exact (hnone _ _ (List.getElem?_eq_getElem hW)
      (List.getElem?_eq_getElem hposlt)).elim
  | case4 q pos hW =>
    rw [sink.eq_def]
    simp only [dif_neg hW]
    have hlen := winner_oob q pos hW
    rw [heapInv_iff_okUp]
    intro c hc0
    by_cases hcchild : (c - 1) / 2 = pos
    · intro nc np hnc hnp
      have hclt := (List.getElem?_eq_some_iff.mp hnc).1
      omega
    · exact h1 c hc0 hcchild

/-! ### `reheapify` restores heap order -/

theorem heapInv_okOver (q : PQ K V P) (pos : Nat) (hN : NegTransB q.precedes)
    (hInv : heapInv q) (h0 : pos ≠ 0) (c : Nat) (hc : (c - 1) / 2 = pos) :
    okOver q c pos := by
  intro nc np hnc hnp
  have hclt := (List.getElem?_eq_some_iff.mp hnc).1
  have hposlt : pos < q.heap.length := by omega
  have hxent : q.heap[pos]? = some (q.heap.get ⟨pos, hposlt⟩) := by
    simp [List.get_eq_getElem]
  have hc0 : c ≠ 0 := by omega
  have e1 := (heapInv_iff q).mp hInv c nc _ hc0 hnc (by rw [hc]; exact hxent)
  have e2 := (heapInv_iff q).mp hInv pos _ np h0 hxent hnp
  exact hN _ _ _ e1 e2

theorem reheapify_heapInv (q : PQ K V P) (pos : Nat)
    (hT : TransB q.precedes) (hA : AsymmB q.precedes) (hN : NegTransB q.precedes)
    (h1 : ∀ c, c ≠ 0 → c ≠ pos → (c - 1) / 2 ≠ pos → okUp q c)
    (h2 : pos ≠ 0 → ∀ c, (c - 1) / 2 = pos → okOver q c pos) :
    heapInv (reheapify q pos) := by
  unfold reheapify
  cases hx : q.heap[pos]? with
  | none =>
    have hlen : q.heap.length ≤ pos := List.getElem?_eq_none_iff.mp hx
    have hsink : sink q pos = q := by
      rw [sink.eq_def]
      have hnw : ¬ winner q pos < q.heap.length := by
        rcases winner_cases q pos with h | h <;> omega
      simp only [dif_neg hnw]
    rw [hsink]
    apply swim_heapInv q pos hT hA hN
    · intro c hc0 hcpos nc np hnc hnp
      have hclt := (List.getElem?_eq_some_iff.mp hnc).1
      exact h1 c hc0 hcpos (by omega) nc np hnc hnp
    · exact h2
  | some x =>
    by_cases h0 : pos = 0
    · subst h0
      have hs : heapInv (sink q 0) := by
        apply sink_heapInv q 0 hT hA hN
        · intro c hc0 hcc
          exact h1 c hc0 hc0 hcc
        · intro h
          exact absurd rfl h
      rw [swim.eq_def]
      simp only [dif_pos rfl]
      exact hs
    · cases hp : q.heap[(pos - 1) / 2]? with
      | none =>
        have h1lt := (List.getElem?_eq_some_iff.mp hx).1
        have h2n := List.getElem?_eq_none_iff.mp hp
        have := parent_lt h0
        omega
      | some np =>
        by_cases hedge : q.precedes x.prio np.prio = true
        · -- the changed entry must go up: sink stops, swim restores
          have hchild : ∀ (c : Nat) (nc : Node K V P), (c - 1) / 2 = pos →
              c ≠ 0 → q.heap[c]? = some nc →
              q.precedes nc.prio x.prio = false := by
            intro c nc hc hc0 hnc
            have hover := h2 h0 c hc nc np hnc hp
            by_contra hcon
            have hcon' : q.precedes nc.prio x.prio = true := by
              cases h3 : q.precedes nc.prio x.prio with
              | true => rfl
              | false => exact absurd h3 hcon
            have h4 := hT nc.prio x.prio np.prio hcon' hedge
            rw [hover] at h4
            cases h4
          rw [sink_stop q pos x hx hchild]
          apply swim_heapInv q pos hT hA hN
          · intro c hc0 hcpos nc np' hnc hnp'
            by_cases hcc : (c - 1) / 2 = pos
            · rw [hcc, hx] at hnp'
              rw [← Option.some_inj.mp hnp']
              exact hchild c nc hcc hc0 hnc
            · exact h1 c hc0 hcpos hcc nc np' hnc hnp'
          · exact h2
        · -- the edge above `pos` already holds: sink restores, swim is inert
          have hs : heapInv (sink q pos) := by
            apply sink_heapInv q pos hT hA hN
            · intro c hc0 hcc
              by_cases hcpos : c = pos
              · subst hcpos
                intro nc np' hnc hnp'
                rw [hx] at hnc
                rw [hp] at hnp'
                rw [← Option.some_inj.mp hnc, ← Option.some_inj.mp hnp']
                cases h3 : q.precedes x.prio np.prio with
                | true => exact absurd h3 hedge
                | false => rfl
              · exact h1 c hc0 hcpos hcc
            · exact h2
          have hpr' : (sink q pos).precedes = q.precedes := sink_precedes q pos
          apply swim_heapInv (sink q pos) pos (by rw [hpr']; exact hT)
            (by rw [hpr']; exact hA) (by rw [hpr']; exact hN)
          · intro c hc0 hcpos
            exact (heapInv_iff_okUp _).mp hs c hc0
          · intro h0' c hc
            exact heapInv_okOver _ pos (by rw [hpr']; exact hN) hs h0' c hc

/-! ### `__setitem__` preserves the invariants -/

theorem mem_delPos_ne (m : List (K × Nat)) (k : K) (e : K × Nat)
    (hnd : (m.map Prod.fst).Nodup) (h : e ∈ delPos m k) : e.1 ≠ k := by
  induction m with
  | nil => simp [delPos] at h
  | cons e' rest ih =>
    obtain ⟨k', v⟩ := e'
    simp only [List.map_cons, List.nodup_cons] at hnd
    by_cases h2 : k' = k
    · subst h2
      simp only [delPos, if_pos rfl] at h
      intro h3
      exact hnd.1 (List.mem_map.mpr ⟨e, h, h3⟩)
    · simp only [delPos, if_neg h2] at h
      rcases List.mem_cons.mp h with h3 | h3
      · rw [h3]
        exact h2
      · exact ih hnd.2 h3

theorem setitem_eq_add (q : PQ K V P) (k : K) (v : V)
    (hlk : lookupPos q.position k = none) :
    setitem q k v =
      swim { q with
             heap := q.heap ++ [⟨k, v, q.keyfn v⟩]
             position := setPos q.position k q.heap.length } q.heap.length := by
  unfold setitem
  rw [hlk]

theorem setitem_eq_update (q : PQ K V P) (k : K) (v : V) (pos : Nat)
    (node : Node K V P) (hlk : lookupPos q.position k = some pos)
    (hnode : q.heap[pos]? = some node) :
    setitem q k v =
      reheapify { q with heap := q.heap.set pos ⟨node.key, v, q.keyfn v⟩ } pos := by
  unfold setitem
  rw [hlk]
  simp only [hnode]

theorem setitem_eq_oob (q : PQ K V P) (k : K) (v : V) (pos : Nat)
    (hlk : lookupPos q.position k = some pos) (hnode : q.heap[pos]? = none) :
    setitem q k v = q := by
  unfold setitem
  rw [hlk]
  simp only [hnode]

theorem setitem_precedes (q : PQ K V P) (k : K) (v : V) :
    (setitem q k v).precedes = q.precedes := by
  cases hlk : lookupPos q.position k with
  | none => rw [setitem_eq_add q k v hlk, swim_precedes]
  | some pos =>
    cases hnode : q.heap[pos]? with
    | none => rw [setitem_eq_oob q k v pos hlk hnode]
    | some node =>
      rw [setitem_eq_update q k v pos node hlk hnode, reheapify_precedes]

theorem setitem_keyfn (q : PQ K V P) (k : K) (v : V) :
    (setitem q k v).keyfn = q.keyfn := by
  cases hlk : lookupPos q.position k with
  | none => rw [setitem_eq_add q k v hlk, swim_keyfn]
  | some pos =>
    cases hnode : q.heap[pos]? with
    | none => rw [setitem_eq_oob q k v pos hlk hnode]
    | some node =>
      rw [setitem_eq_update q k v pos node hlk hnode, reheapify_keyfn]

theorem setitem_heapInv (q : PQ K V P) (k : K) (v : V)
    (hT : TransB q.precedes) (hA : AsymmB q.precedes) (hN : NegTransB q.precedes)
    (hH : heapInv q) : heapInv (setitem q k v) := by
  cases hlk : lookupPos q.position k with
  | none =>
    rw [setitem_eq_add q k v hlk]
    refine swim_heapInv _ _ ?_ ?_ ?_ ?_ ?_
    · exact hT
    · exact hA
    · exact hN
    · intro c hc0 hcn nc np hnc hnp
      simp only at hnc hnp
      have hclt := (List.getElem?_eq_some_iff.mp hnc).1
      rw [List.length_append, List.length_singleton] at hclt
      have hclt' : c < q.heap.length := by omega
      rw [List.getElem?_append_left hclt'] at hnc
      rw [List.getElem?_append_left (by omega)] at hnp
      exact (heapInv_iff q).mp hH c nc np hc0 hnc hnp
    · intro h0 c hc nc np hnc hnp
      simp only at hnc
      have hclt := (List.getElem?_eq_some_iff.mp hnc).1
      rw [List.length_append, List.length_singleton] at hclt
      omega
  | some pos =>
    cases hnode : q.heap[pos]? with
    | none =>
      rw [setitem_eq_oob q k v pos hlk hnode]
      exact hH
    | some node =>
      have hposlt : pos < q.heap.length := (List.getElem?_eq_some_iff.mp hnode).1
      rw [setitem_eq_update q k v pos node hlk hnode]
      refine reheapify_heapInv _ _ ?_ ?_ ?_ ?_ ?_
      · exact hT
      · exact hA
      · exact hN
      · intro c hc0 hcpos hcc nc np hnc hnp
        simp only at hnc hnp
        rw [List.getElem?_set_ne (Ne.symm hcpos)] at hnc
        rw [List.getElem?_set_ne (Ne.symm hcc)] at hnp
        exact (heapInv_iff q).mp hH c nc np hc0 hnc hnp
      · intro h0 c hc nc np hnc hnp
        simp only at hnc hnp
        have hcgt : pos < c := by
          have := (List.getElem?_eq_some_iff.mp hnc).1
          omega
        rw [List.getElem?_set_ne (by omega)] at hnc
        rw [List.getElem?_set_ne (by
          have := parent_lt h0
          omega)] at hnp
        exact heapInv_okOver q pos hN hH h0 c hc nc np hnc hnp

theorem setitem_indexInv (q : PQ K V P) (k : K) (v : V)
    (hI : indexInv q) : indexInv (setitem q k v) := by
  cases hlk : lookupPos q.position k with
  | none =>
    rw [setitem_eq_add q k v hlk]
    apply swim_indexInv
    refine indexInv_of_parts _ ?_ ?_ ?_
    · intro e he
      simp only at he ⊢
      rcases mem_setPos _ _ _ _ hI.2.2 he with h1 | ⟨h1, h1k⟩
      · subst h1
        simp only
        rw [List.getElem?_concat_length]
        rfl
      · have horig := hI.1 e h1
        have helt : e.2 < q.heap.length := by
          cases h3 : q.heap[e.2]? with
          | none => rw [h3] at horig; cases horig
          | some m => exact (List.getElem?_eq_some_iff.mp h3).1
        rw [List.getElem?_append_left helt]
        exact horig
    · intro t node hget
      simp only at hget ⊢
      by_cases ht : t < q.heap.length
      · rw [List.getElem?_append_left ht] at hget
        have horig := indexInv_lookup_of_getElem? hI hget
        have hkk : node.key ≠ k := by
          intro h3
          rw [h3, hlk] at horig
          cases horig
        rw [lookupPos_setPos_ne _ _ _ _ hkk]
        exact horig
      · have hlen := (List.getElem?_eq_some_iff.mp hget).1
        rw [List.length_append, List.length_singleton] at hlen
        have ht' : t = q.heap.length := by omega
        rw [ht', List.getElem?_concat_length] at hget
        rw [← Option.some_inj.mp hget, ht']
        exact lookupPos_setPos_self _ _ _
    · exact nodup_keys_setPos _ _ _ hI.2.2
  | some pos =>
    cases hnode : q.heap[pos]? with
    | none =>
      rw [setitem_eq_oob q k v pos hlk hnode]
      exact hI
    | some node =>
      have hposlt : pos < q.heap.length := (List.getElem?_eq_some_iff.mp hnode).1
      rw [setitem_eq_update q k v pos node hlk hnode]
      apply reheapify_indexInv
      refine indexInv_of_parts _ ?_ ?_ ?_
      · intro e he
        simp only at he ⊢
        by_cases hepos : e.2 = pos
        · have horig := hI.1 e he
          rw [hepos, hnode] at horig
          rw [hepos, List.getElem?_set_self hposlt]
          simpa using horig
        · rw [List.getElem?_set_ne (Ne.symm hepos)]
          exact hI.1 e he
      · intro t node' hget
        simp only at hget ⊢
        by_cases ht : t = pos
        · rw [ht, List.getElem?_set_self hposlt] at hget
          rw [← Option.some_inj.mp hget]
          simp only
          rw [ht]
          exact indexInv_lookup_of_getElem? hI hnode
        · rw [List.getElem?_set_ne (Ne.symm ht)] at hget
          exact indexInv_lookup_of_getElem? hI hget
      · exact hI.2.2

/-! ### `__delitem__` preserves the invariants -/

theorem delitem_eq_last (q : PQ K V P) (k : K) (pos : Nat)
    (endNode : Node K V P) (hlk : lookupPos q.position k = some pos)
    (hend : q.heap.getLast? = some endNode)
    (hpos : pos = q.heap.length - 1) :
    delitem q k = .ok { q with heap := q.heap.dropLast,
                               position := delPos q.position k } := by
  unfold delitem
  rw [hlk]
  simp only [hend, List.length_dropLast, if_pos hpos]

theorem delitem_eq_move (q : PQ K V P) (k : K) (pos : Nat)
    (endNode : Node K V P) (hlk : lookupPos q.position k = some pos)
    (hend : q.heap.getLast? = some endNode)
    (hpos : ¬ pos = q.heap.length - 1) :
    delitem q k = .ok (reheapify
      { q with heap := q.heap.dropLast.set pos endNode,
               position := setPos (delPos q.position k) endNode.key pos } pos) := by
  unfold delitem
  rw [hlk]
  simp only [hend, List.length_dropLast, if_neg hpos]

theorem lookupPos_eq_none_of_keys (q : PQ K V P) (hI : indexInv q) (k : K)
    (h : ∀ n ∈ q.heap, n.key ≠ k) : lookupPos q.position k = none := by
  cases hlp : lookupPos q.position k with
  | none => rfl
  | some p =>
    obtain ⟨node, hget, hkey⟩ := indexInv_lookup hI hlp
    have hmem : node ∈ q.heap := List.mem_iff_getElem?.mpr ⟨p, hget⟩
    exact absurd hkey (h node hmem)

theorem delitem_ok_spec (q : PQ K V P) (k : K)
    (hT : TransB q.precedes) (hA : AsymmB q.precedes) (hN : NegTransB q.precedes)
    (hH : heapInv q) (hI : indexInv q) (q' : PQ K V P)
    (hdel : delitem q k = .ok q') :
    heapInv q' ∧ indexInv q' ∧ q'.precedes = q.precedes ∧ q'.keyfn = q.keyfn ∧
    q'.heap.length = q.heap.length - 1 ∧
    (∃ (pos : Nat) (node : Node K V P),
      lookupPos q.position k = some pos ∧ q.heap[pos]? = some node ∧
      node.key = k ∧ List.Perm (node :: q'.heap) q.heap) ∧
    lookupPos q'.position k = none := by
  cases hlk : lookupPos q.position k with
  | none =>
    unfold delitem at hdel
    rw [hlk] at hdel
    cases hdel
  | some pos =>
    obtain ⟨node, hnode, hkey⟩ := indexInv_lookup hI hlk
    have hposlt : pos < q.heap.length := (List.getElem?_eq_some_iff.mp hnode).1
    have hne : q.heap ≠ [] := by
      intro h
      rw [h] at hposlt
      cases hposlt
    have hend0 : q.heap.getLast? = some (q.heap.getLast hne) :=
      List.getLast?_eq_getLast q.heap hne
    have hendget : q.heap[q.heap.length - 1]? = some (q.heap.getLast hne) := by
      rw [← List.getLast?_eq_getElem?]
      exact hend0
    -- positional key facts
    have hkeyat : ∀ (t : Nat) (n : Node K V P), q.heap[t]? = some n →
        n.key = k → t = pos := by
      intro t n hget hk
      have h5 := indexInv_lookup_of_getElem? hI hget
      rw [hk, hlk] at h5
      exact (Option.some_inj.mp h5).symm
    by_cases hpos : pos = q.heap.length - 1
    · -- the removed entry is the last one: just shrink
      rw [delitem_eq_last q k pos _ hlk hend0 hpos] at hdel
      have hq' := (Except.ok.injEq _ _).mp hdel.symm
      subst hq'
      have hnodelast : node = q.heap.getLast hne := by
        rw [hpos] at hnode
        rw [hendget] at hnode
        exact (Option.some_inj.mp hnode).symm
      have hgetd : ∀ (t : Nat), t < q.heap.length - 1 →
          q.heap.dropLast[t]? = q.heap[t]? := by
        intro t ht
        rw [List.getElem?_dropLast, if_pos ht]
      have hgetd' : ∀ (t : Nat) (n : Node K V P),
          q.heap.dropLast[t]? = some n → t < q.heap.length - 1 ∧
            q.heap[t]? = some n := by
        intro t n hget
        have ht := (List.getElem?_eq_some_iff.mp hget).1
        rw [List.length_dropLast] at ht
        rw [hgetd t ht] at hget
        exact ⟨ht, hget⟩
      refine ⟨?_, ?_, rfl, rfl, by simp, ⟨pos, node, rfl, hnode, hkey, ?_⟩, ?_⟩
      · rw [heapInv_iff_okUp]
        intro c hc0 nc np hnc hnp
        obtain ⟨hc, hnc'⟩ := hgetd' c nc hnc
        obtain ⟨hp, hnp'⟩ := hgetd' _ np hnp
        exact (heapInv_iff q).mp hH c nc np hc0 hnc' hnp'
      · refine indexInv_of_parts _ ?_ ?_ ?_
        · intro e he
          simp only at he ⊢
          have hmem := mem_delPos q.position k e he
          have hek : e.1 ≠ k := mem_delPos_ne q.position k e hI.2.2 he
          have horig := hI.1 e hmem
          have helt : e.2 < q.heap.length := by
            cases h3 : q.heap[e.2]? with
            | none => rw [h3] at horig; cases horig
            | some m => exact (List.getElem?_eq_some_iff.mp h3).1
          have hepos : e.2 ≠ pos := by
            intro h3
            rw [h3, hnode] at horig
            exact hek (by simpa [hkey] using horig.symm)
          rw [hgetd e.2 (by omega)]
          exact horig
        · intro t n hget
          simp only at hget ⊢
          obtain ⟨ht, hget'⟩ := hgetd' t n hget
          have hnk : n.key ≠ k := by
            intro h3
            have := hkeyat t n hget' h3
            omega
          rw [lookupPos_delPos_ne _ _ _ hnk]
          exact indexInv_lookup_of_getElem? hI hget'
        · exact nodup_keys_delPos _ _ hI.2.2
      · -- node :: dropLast ~ heap
        have heq : q.heap.dropLast ++ [q.heap.getLast hne] = q.heap :=
          List.dropLast_concat_getLast hne
        have hperm : List.Perm (q.heap.getLast hne :: q.heap.dropLast)
            (q.heap.dropLast ++ [q.heap.getLast hne]) :=
          (List.perm_append_singleton _ _).symm
        rw [heq] at hperm
        rw [hnodelast]
        exact hperm
      · simp only
        exact lookupPos_delPos_self _ _ hI.2.2
    · -- general case: move the last entry into the hole and reheapify
      rw [delitem_eq_move q k pos _ hlk hend0 hpos] at hdel
      have hq' := (Except.ok.injEq _ _).mp hdel.symm
      subst hq'
      set endNode := q.heap.getLast hne with henddef
      have hplt : pos < q.heap.length - 1 := by omega
      have hkend : endNode.key ≠ k := by
        intro h3
        have := hkeyat (q.heap.length - 1) endNode hendget h3
        omega
      have hsetlen : (q.heap.dropLast.set pos endNode).length =
          q.heap.length - 1 := by
        simp
      have hget'' : ∀ (t : Nat), t ≠ pos →
          (q.heap.dropLast.set pos endNode)[t]? = q.heap.dropLast[t]? := by
        intro t ht
        rw [List.getElem?_set_ne (Ne.symm ht)]
      have hgetpos : (q.heap.dropLast.set pos endNode)[pos]? = some endNode := by
        rw [List.getElem?_set_self]
        rw [List.length_dropLast]
        exact hplt
      have hgetq : ∀ (t : Nat) (n : Node K V P), t ≠ pos →
          (q.heap.dropLast.set pos endNode)[t]? = some n →
          t < q.heap.length - 1 ∧ q.heap[t]? = some n := by
        intro t n ht hget
        rw [hget'' t ht] at hget
        have htlt := (List.getElem?_eq_some_iff.mp hget).1
        rw [List.length_dropLast] at htlt
        rw [List.getElem?_dropLast, if_pos htlt] at hget
        exact ⟨htlt, hget⟩
      have hgetq' : ∀ (t : Nat), t ≠ pos → t < q.heap.length - 1 →
          (q.heap.dropLast.set pos endNode)[t]? = q.heap[t]? := by
        intro t ht htlt
        rw [hget'' t ht, List.getElem?_dropLast, if_pos htlt]
      -- invariants of the intermediate state, then reheapify
      have hI'' : indexInv { q with
          heap := q.heap.dropLast.set pos endNode,
          position := setPos (delPos q.position k) endNode.key pos } := by
        refine indexInv_of_parts _ ?_ ?_ ?_
        · intro e he
          simp only at he ⊢
          have hnd := nodup_keys_delPos q.position k hI.2.2
          rcases mem_setPos _ _ _ _ hnd he with h1 | ⟨h1, h1k⟩
          · subst h1
            simp only
            rw [hgetpos]
            rfl
          · have hmem := mem_delPos q.position k e h1
            have hek : e.1 ≠ k := mem_delPos_ne q.position k e hI.2.2 h1
            have horig := hI.1 e hmem
            have helt : e.2 < q.heap.length := by
              cases h3 : q.heap[e.2]? with
              | none => rw [h3] at horig; cases horig
              | some m => exact (List.getElem?_eq_some_iff.mp h3).1
            have hepos : e.2 ≠ pos := by
              intro h3
              rw [h3, hnode] at horig
              exact hek (by simpa [hkey] using horig.symm)
            have heend : e.2 ≠ q.heap.length - 1 := by
              intro h3
              rw [h3, hendget] at horig
              exact h1k (by simpa using horig.symm)
            rw [hgetq' e.2 hepos (by omega)]
            exact horig
        · intro t n hget
          simp only at hget ⊢
          by_cases ht : t = pos
          · rw [ht, hgetpos] at hget
            rw [← Option.some_inj.mp hget, ht]
            exact lookupPos_setPos_self _ _ _
          · obtain ⟨htlt, hget'⟩ := hgetq t n ht hget
            have hnk : n.key ≠ k := by
              intro h3
              exact ht (hkeyat t n hget' h3)
            have hnend : n.key ≠ endNode.key := by
              intro h3
              have := indexInv_lookup_of_getElem? hI hget'
              rw [h3] at this
              have h4 := indexInv_lookup_of_getElem? hI hendget
              rw [this] at h4
              have := Option.some_inj.mp h4
              omega
            rw [lookupPos_setPos_ne _ _ _ _ hnend,
              lookupPos_delPos_ne _ _ _ hnk]
            exact indexInv_lookup_of_getElem? hI hget'
        · exact nodup_keys_setPos _ _ _ (nodup_keys_delPos _ _ hI.2.2)
      refine ⟨?_, reheapify_indexInv _ _ hI'', by rw [reheapify_precedes],
        by rw [reheapify_keyfn], by rw [reheapify_length]; simp,
        ⟨pos, node, rfl, hnode, hkey, ?_⟩, ?_⟩
      · refine reheapify_heapInv _ _ ?_ ?_ ?_ ?_ ?_
        · exact hT
        · exact hA
        · exact hN
        · intro c hc0 hcpos hcc nc np hnc hnp
          simp only at hnc hnp
          obtain ⟨hclt, hnc'⟩ := hgetq c nc hcpos hnc
          obtain ⟨hplt', hnp'⟩ := hgetq _ np hcc hnp
          exact (heapInv_iff q).mp hH c nc np hc0 hnc' hnp'
        · intro h0 c hc nc np hnc hnp
          simp only at hnc hnp
          have hcgt : pos < c := by
            have := (List.getElem?_eq_some_iff.mp hnc).1
            omega
          obtain ⟨hclt, hnc'⟩ := hgetq c nc (by omega) hnc
          obtain ⟨hplt', hnp'⟩ := hgetq _ np (by
            have := parent_lt h0
            omega) hnp
          exact heapInv_okOver q pos hN hH h0 c hc nc np hnc' hnp'
      · -- node :: reheapified ~ original heap
        have hdrop : q.heap.dropLast[pos]? = some node := by
          rw [List.getElem?_dropLast, if_pos hplt]
          exact hnode
        have hp1 : List.Perm (node :: q.heap.dropLast.set pos endNode)
            (endNode :: q.heap.dropLast) :=
          cons_set_perm q.heap.dropLast pos endNode node hdrop
        have hp2 : List.Perm (endNode :: q.heap.dropLast) q.heap := by
          have heq : q.heap.dropLast ++ [endNode] = q.heap :=
            List.dropLast_concat_getLast hne
          have hperm : List.Perm (endNode :: q.heap.dropLast)
              (q.heap.dropLast ++ [endNode]) :=
            (List.perm_append_singleton _ _).symm
          rw [heq] at hperm
          exact hperm
        exact ((reheapify_heap_perm _ pos).cons node).trans (hp1.trans hp2)
      · -- the removed key is gone from the index
        apply lookupPos_eq_none_of_keys _ (reheapify_indexInv _ _ hI'')
        intro n hmem h3
        have hmem' : n ∈ q.heap.dropLast.set pos endNode :=
          ((reheapify_heap_perm _ pos).mem_iff).mp hmem
        obtain ⟨t, hget⟩ := List.mem_iff_getElem?.mp hmem'
        by_cases ht : t = pos
        · rw [ht, hgetpos] at hget
          rw [← Option.some_inj.mp hget] at h3
          exact hkend h3
        · obtain ⟨htlt, hget'⟩ := hgetq t n ht hget
          exact ht (hkeyat t n hget' h3)

/-! ### `pushpopitem` equations and invariants -/

theorem pushpopitem_eq_error (q : PQ K V P) (k : K) (v : V)
    (hlk : (lookupPos q.position k).isSome) :
    pushpopitem q k v = .error .keyAlreadyExists := by
  unfold pushpopitem
  rw [if_pos hlk]

theorem pushpopitem_eq_empty (q : PQ K V P) (k : K) (v : V)
    (hlk : lookupPos q.position k = none) (hheap : q.heap = []) :
    pushpopitem q k v = .ok ((k, v), q) := by
  unfold pushpopitem
  rw [hlk]
  simp only [Option.isSome_none, Bool.false_eq_true, if_false, hheap]

theorem pushpopitem_eq_keep (q : PQ K V P) (k : K) (v : V)
    (top : Node K V P) (rest : List (Node K V P))
    (hlk : lookupPos q.position k = none) (hheap : q.heap = top :: rest)
    (hpr : q.precedes top.prio (q.keyfn v) = false) :
    pushpopitem q k v = .ok ((k, v), q) := by
  unfold pushpopitem
  rw [hlk]
  simp only [Option.isSome_none, Bool.false_eq_true, if_false, hheap, hpr]

theorem pushpopitem_eq_displace (q : PQ K V P) (k : K) (v : V)
    (top : Node K V P) (rest : List (Node K V P))
    (hlk : lookupPos q.position k = none) (hheap : q.heap = top :: rest)
    (hpr : q.precedes top.prio (q.keyfn v) = true) :
    pushpopitem q k v = .ok ((top.key, top.value),
      sink { q with
             heap := ⟨k, v, q.keyfn v⟩ :: rest
             position := delPos (setPos q.position k 0) top.key } 0) := by
  unfold pushpopitem
  rw [hlk]
  simp only [Option.isSome_none, Bool.false_eq_true, if_false, hheap, hpr]
  simp

theorem pushpopitem_displace_inv (q : PQ K V P) (k : K) (v : V)
    (top : Node K V P) (rest : List (Node K V P))
    (hI : indexInv q) (hlk : lookupPos q.position k = none)
    (hheap : q.heap = top :: rest) :
    indexInv { q with
               heap := ⟨k, v, q.keyfn v⟩ :: rest
               position := delPos (setPos q.position k 0) top.key } ∧
    (∀ (t : Nat), t ≠ 0 →
      ((⟨k, v, q.keyfn v⟩ : Node K V P) :: rest)[t]? = q.heap[t]?) := by
  have htop : q.heap[0]? = some top := by rw [hheap]; simp
  have htopk : lookupPos q.position top.key = some 0 :=
    indexInv_lookup_of_getElem? hI htop
  have hktop : k ≠ top.key := by
    intro h
    rw [← h, hlk] at htopk
    cases htopk
  have htail : ∀ (t : Nat), t ≠ 0 →
      ((⟨k, v, q.keyfn v⟩ : Node K V P) :: rest)[t]? = q.heap[t]? := by
    intro t ht
    cases t with
    | zero => exact absurd rfl ht
    | succ t' => rw [hheap]; rfl
  refine ⟨indexInv_of_parts _ ?_ ?_ ?_, htail⟩
  · intro e he
    simp only at he ⊢
    have hnd1 : ((setPos q.position k 0).map Prod.fst).Nodup :=
      nodup_keys_setPos _ _ _ hI.2.2
    have hek : e.1 ≠ top.key := mem_delPos_ne _ _ _ hnd1 he
    have hmem := mem_delPos _ _ _ he
    rcases mem_setPos _ _ _ _ hI.2.2 hmem with h1 | ⟨h1, h1k⟩
    · subst h1
      simp
    · have horig := hI.1 e h1
      have he0 : e.2 ≠ 0 := by
        intro h3
        rw [h3, htop] at horig
        exact hek (Option.some_inj.mp horig).symm
      rw [htail e.2 he0]
      exact horig
  · intro t n hget
    simp only at hget ⊢
    by_cases ht : t = 0
    · rw [ht] at hget ⊢
      rw [List.getElem?_cons_zero] at hget
      have hn : n = ⟨k, v, q.keyfn v⟩ := (Option.some_inj.mp hget).symm
      rw [hn]
      simp only
      rw [lookupPos_delPos_ne _ _ _ hktop, lookupPos_setPos_self]
    · rw [htail t ht] at hget
      have horig := indexInv_lookup_of_getElem? hI hget
      have hnk : n.key ≠ k := by
        intro h3
        rw [h3, hlk] at horig
        cases horig
      have hnt : n.key ≠ top.key := by
        intro h3
        rw [h3, htopk] at horig
        exact ht (Option.some_inj.mp horig).symm
      rw [lookupPos_delPos_ne _ _ _ hnt, lookupPos_setPos_ne _ _ _ _ hnk]
      exact horig
  · exact nodup_keys_delPos _ _ (nodup_keys_setPos _ _ _ hI.2.2)

theorem pushpopitem_displace_heapInv (q : PQ K V P) (k : K) (v : V)
    (top : Node K V P) (rest : List (Node K V P))
    (hT : TransB q.precedes) (hA : AsymmB q.precedes) (hN : NegTransB q.precedes)
    (hH : heapInv q) (hheap : q.heap = top :: rest) :
    heapInv (sink { q with
                    heap := ⟨k, v, q.keyfn v⟩ :: rest
                    position := delPos (setPos q.position k 0) top.key } 0) := by
  have htail : ∀ (t : Nat), t ≠ 0 →
      ((⟨k, v, q.keyfn v⟩ : Node K V P) :: rest)[t]? = q.heap[t]? := by
    intro t ht
    cases t with
    | zero => exact absurd rfl ht
    | succ t' => rw [hheap]; rfl
  refine sink_heapInv _ 0 ?_ ?_ ?_ ?_ ?_
  · exact hT
  · exact hA
  · exact hN
  · intro c hc0 hcc nc np hnc hnp
    simp only at hnc hnp
    rw [htail c hc0] at hnc
    rw [htail _ (by omega)] at hnp
    exact (heapInv_iff q).mp hH c nc np hc0 hnc hnp
  · intro h0
    exact absurd rfl h0

/-! ### `replace_key` equations and invariants -/

theorem replace_key_eq_ok (q : PQ K V P) (k newKey : K) (pos : Nat)
    (node : Node K V P) (hnew : lookupPos q.position newKey = none)
    (hlk : lookupPos q.position k = some pos)
    (hnode : q.heap[pos]? = some node) :
    replace_key q k newKey = .ok
      { q with
        position := setPos (delPos q.position k) newKey pos
        heap := q.heap.set pos ⟨newKey, node.value, node.prio⟩ } := by
  unfold replace_key
  rw [hnew, hlk]
  simp only [Option.isSome_none, Bool.false_eq_true, if_false, hnode]

theorem replace_key_eq_already (q : PQ K V P) (k newKey : K)
    (hnew : (lookupPos q.position newKey).isSome) :
    replace_key q k newKey = .error .keyAlreadyExists := by
  unfold replace_key
  rw [if_pos hnew]

theorem replace_key_eq_notfound (q : PQ K V P) (k newKey : K)
    (hnew : lookupPos q.position newKey = none)
    (hlk : lookupPos q.position k = none) :
    replace_key q k newKey = .error .keyNotFound := by
  unfold replace_key
  rw [hnew, hlk]
  simp

theorem replace_key_inv (q : PQ K V P) (k newKey : K) (pos : Nat)
    (node : Node K V P) (hH : heapInv q) (hI : indexInv q)
    (hnew : lookupPos q.position newKey = none)
    (hlk : lookupPos q.position k = some pos)
    (hnode : q.heap[pos]? = some node) :
    heapInv { q with
              position := setPos (delPos q.position k) newKey pos
              heap := q.heap.set pos ⟨newKey, node.value, node.prio⟩ } ∧
    indexInv { q with
               position := setPos (delPos q.position k) newKey pos
               heap := q.heap.set pos ⟨newKey, node.value, node.prio⟩ } := by
  have hposlt : pos < q.heap.length := (List.getElem?_eq_some_iff.mp hnode).1
  have hkey : node.key = k := by
    obtain ⟨node', hnode', hkey'⟩ := indexInv_lookup hI hlk
    rw [hnode] at hnode'
    rw [Option.some_inj.mp hnode']
    exact hkey'
  have hgetpos : (q.heap.set pos ⟨newKey, node.value, node.prio⟩)[pos]? =
      some ⟨newKey, node.value, node.prio⟩ :=
    List.getElem?_set_self hposlt
  have hgetoth : ∀ (t : Nat), t ≠ pos →
      (q.heap.set pos ⟨newKey, node.value, node.prio⟩)[t]? = q.heap[t]? := by
    intro t ht
    exact List.getElem?_set_ne (Ne.symm ht)
  constructor
  · -- priorities are untouched, so every edge transfers
    rw [heapInv_iff_okUp]
    intro c hc0 nc np hnc hnp
    simp only at hnc hnp
    have hprc : ∃ nc' : Node K V P, q.heap[c]? = some nc' ∧ nc'.prio = nc.prio := by
      by_cases hc : c = pos
      · rw [hc, hgetpos] at hnc
        refine ⟨node, by rw [hc]; exact hnode, ?_⟩
        rw [← Option.some_inj.mp hnc]
      · rw [hgetoth c hc] at hnc
        exact ⟨nc, hnc, rfl⟩
    have hprp : ∃ np' : Node K V P, q.heap[(c - 1) / 2]? = some np' ∧
        np'.prio = np.prio := by
      by_cases hc : (c - 1) / 2 = pos
      · rw [hc, hgetpos] at hnp
        refine ⟨node, by rw [hc]; exact hnode, ?_⟩
        rw [← Option.some_inj.mp hnp]
      · rw [hgetoth _ hc] at hnp
        exact ⟨np, hnp, rfl⟩
    obtain ⟨nc', hnc', hprc'⟩ := hprc
    obtain ⟨np', hnp', hprp'⟩ := hprp
    rw [← hprc', ← hprp']
    exact (heapInv_iff q).mp hH c nc' np' hc0 hnc' hnp'
  · have hknew : k ≠ newKey := by
      intro h
      rw [h, hnew] at hlk
      cases hlk
    refine indexInv_of_parts _ ?_ ?_ ?_
    · intro e he
      simp only at he ⊢
      have hnd := nodup_keys_delPos q.position k hI.2.2
      rcases mem_setPos _ _ _ _ hnd he with h1 | ⟨h1, h1k⟩
      · subst h1
        rw [hgetpos]
        rfl
      · have hmem := mem_delPos _ _ _ h1
        have hek : e.1 ≠ k := mem_delPos_ne _ _ _ hI.2.2 h1
        have horig := hI.1 e hmem
        have hepos : e.2 ≠ pos := by
          intro h3
          rw [h3, hnode] at horig
          exact hek (by simpa [hkey] using horig.symm)
        rw [hgetoth e.2 hepos]
        exact horig
    · intro t n hget
      simp only at hget ⊢
      by_cases ht : t = pos
      · rw [ht, hgetpos] at hget
        rw [← Option.some_inj.mp hget, ht]
        simp only
        exact lookupPos_setPos_self _ _ _
      · rw [hgetoth t ht] at hget
        have horig := indexInv_lookup_of_getElem? hI hget
        have hnk : n.key ≠ k := by
          intro h3
          rw [h3, hlk] at horig
          exact ht (Option.some_inj.mp horig).symm
        have hnnew : n.key ≠ newKey := by
          intro h3
          rw [h3, hnew] at horig
          cases horig
        rw [lookupPos_setPos_ne _ _ _ _ hnnew, lookupPos_delPos_ne _ _ _ hnk]
        exact horig
    · exact nodup_keys_setPos _ _ _ (nodup_keys_delPos _ _ hI.2.2)

/-! ### `additem` / `updateitem` equations -/

theorem additem_eq_error (q : PQ K V P) (k : K) (v : V)
    (hlk : (lookupPos q.position k).isSome) :
    additem q k v = .error .keyAlreadyExists := by
  unfold additem
  rw [if_pos hlk]

theorem additem_eq_ok (q : PQ K V P) (k : K) (v : V)
    (hlk : lookupPos q.position k = none) :
    additem q k v = .ok (setitem q k v) := by
  unfold additem
  rw [hlk]
  rfl

theorem updateitem_eq_error (q : PQ K V P) (k : K) (v : V)
    (hlk : lookupPos q.position k = none) :
    updateitem q k v = .error .keyNotFound := by
  unfold updateitem
  rw [hlk]
  rfl

theorem updateitem_eq_ok (q : PQ K V P) (k : K) (v : V)
    (hlk : (lookupPos q.position k).isSome) :
    updateitem q k v = .ok (setitem q k v) := by
  unfold updateitem
  cases h : lookupPos q.position k with
  | none => rw [h] at hlk; cases hlk
  | some pos => rfl

/-! ### Where `swim` leaves the root -/

theorem swim_head_eq (q : PQ K V P) (pos : Nat) (x : Node K V P)
    (hx : q.heap[pos]? = some x)
    (hroot : ∀ r : Node K V P, q.heap[0]? = some r →
      q.precedes x.prio r.prio = false) :
    (swim q pos).heap[0]? = q.heap[0]? := by
  induction q, pos using swim.induct with
  | case1 q =>
    rw [swim.eq_def]
    simp
  | case2 q pos h0 y p hb ha hpr ih =>
    rw [swim.eq_def]
    simp only [dif_neg h0, ha, hb, if_pos hpr]
    have hxy : y = x := by
      rw [ha] at hx
      exact Option.some_inj.mp hx
    subst hxy
    have hp0 : (pos - 1) / 2 ≠ 0 := by
      intro hp
      rw [hp] at hb
      have := hroot p hb
      rw [hpr] at this
      cases this
    have hne : pos ≠ (pos - 1) / 2 := Nat.ne_of_gt (parent_lt h0)
    have h0unchanged : (swapNodes q pos ((pos - 1) / 2)).heap[0]? = q.heap[0]? :=
      swapNodes_getElem?_other q pos _ 0 y p ha hb
        (fun h => h0 h.symm) (fun h => hp0 h.symm)
    have hx' : (swapNodes q pos ((pos - 1) / 2)).heap[(pos - 1) / 2]? = some y :=
      swapNodes_getElem?_snd q pos _ y p ha hb
    have hroot' : ∀ r : Node K V P,
        (swapNodes q pos ((pos - 1) / 2)).heap[0]? = some r →
        (swapNodes q pos ((pos - 1) / 2)).precedes y.prio r.prio = false := by
      intro r hr
      rw [h0unchanged] at hr
      rw [swapNodes_precedes]
      exact hroot r hr
    rw [ih hx' hroot', h0unchanged]
  | case3 q pos h0 y p hb ha hpr =>
    rw [swim.eq_def]
    simp only [dif_neg h0, ha, hb, if_neg hpr]
  | case4 q pos h0 hnone =>
    rw [swim.eq_def]
    simp only [dif_neg h0]

theorem swim_to_root (q : PQ K V P) (pos : Nat) (x : Node K V P)
    (hx : q.heap[pos]? = some x)
    (hall : ∀ (t : Nat) (n : Node K V P), t ≠ pos → q.heap[t]? = some n →
      q.precedes x.prio n.prio = true) :
    (swim q pos).heap[0]? = some x := by
  induction q, pos using swim.induct with
  | case1 q =>
    rw [swim.eq_def]
    simpa using hx
  | case2 q pos h0 y p hb ha hpr ih =>
    rw [swim.eq_def]
    simp only [dif_neg h0, ha, hb, if_pos hpr]
    have hxy : y = x := by
      rw [ha] at hx
      exact Option.some_inj.mp hx
    subst hxy
    have hne : pos ≠ (pos - 1) / 2 := Nat.ne_of_gt (parent_lt h0)
    have hx' : (swapNodes q pos ((pos - 1) / 2)).heap[(pos - 1) / 2]? = some y :=
      swapNodes_getElem?_snd q pos _ y p ha hb
    refine ih hx' ?_
    intro t n ht hn
    rw [swapNodes_precedes]
    by_cases htpos : t = pos
    · rw [htpos, swapNodes_getElem?_fst q pos _ y p ha hb hne] at hn
      rw [← Option.some_inj.mp hn]
      exact hall _ p hne.symm hb
    · rw [swapNodes_getElem?_other q pos _ t y p ha hb htpos ht] at hn
      exact hall t n htpos hn
  | case3 q pos h0 y p hb ha hpr =>
    have hxy : y = x := by
      rw [ha] at hx
      exact Option.some_inj.mp hx
    subst hxy
    have hne : (pos - 1) / 2 ≠ pos := Nat.ne_of_lt (parent_lt h0)
    exact absurd (hall _ p hne hb) hpr
  | case4 q pos h0 hnone =>
    have hposlt := (List.getElem?_eq_some_iff.mp hx).1
    have hplt : (pos - 1) / 2 < q.heap.length :=
      Nat.lt_trans (parent_lt h0) hposlt
    exact (hnone x _ hx (List.getElem?_eq_getElem hplt)).elim

/-! ### The root is minimal -/

theorem heapInv_root_min (q : PQ K V P) (hT : TransB q.precedes)
    (hA : AsymmB q.precedes) (hN : NegTransB q.precedes) (hH : heapInv q)
    (r : Node K V P) (hr : q.heap[0]? = some r) :
    ∀ (t : Nat) (n : Node K V P), q.heap[t]? = some n →
      q.precedes n.prio r.prio = false := by
  intro t
  induction t using Nat.strong_induction_on with
  | _ t ih =>
    intro n hn
    cases ht : decide (t = 0) with
    | true =>
      have ht' : t = 0 := of_decide_eq_true ht
      rw [ht', hr] at hn
      rw [← Option.some_inj.mp hn]
      cases h3 : q.precedes r.prio r.prio with
      | true => exact absurd (hA r.prio r.prio h3) (by rw [h3]; simp)
      | false => rfl
    | false =>
      have ht' : t ≠ 0 := of_decide_eq_false ht
      have htlt := (List.getElem?_eq_some_iff.mp hn).1
      have hplt : (t - 1) / 2 < q.heap.length :=
        Nat.lt_trans (parent_lt ht') htlt
      have hpget : q.heap[(t - 1) / 2]? = some (q.heap.get ⟨(t - 1) / 2, hplt⟩) := by
        simp [List.get_eq_getElem]
      have hedge := (heapInv_iff q).mp hH t n _ ht' hn hpget
      have hup := ih _ (parent_lt ht') _ hpget
      exact hN _ _ _ hedge hup

/-! ### Repeated extraction yields a sorted permutation -/

theorem delitem_isOk (q : PQ K V P) (k : K) (pos : Nat) (hI : indexInv q)
    (hlk : lookupPos q.position k = some pos) :
    ∃ q' : PQ K V P, delitem q k = .ok q' := by
  obtain ⟨node, hnode, hkey⟩ := indexInv_lookup hI hlk
  have hposlt : pos < q.heap.length := (List.getElem?_eq_some_iff.mp hnode).1
  have hne : q.heap ≠ [] := by
    intro h
    rw [h] at hposlt
    cases hposlt
  have hend0 : q.heap.getLast? = some (q.heap.getLast hne) :=
    List.getLast?_eq_getLast q.heap hne
  by_cases hpos : pos = q.heap.length - 1
  · exact ⟨_, delitem_eq_last q k pos _ hlk hend0 hpos⟩
  · exact ⟨_, delitem_eq_move q k pos _ hlk hend0 hpos⟩

theorem popAllFuel_spec (fuel : Nat) :
    ∀ q : PQ K V P, q.heap.length = fuel →
    TransB q.precedes → AsymmB q.precedes → NegTransB q.precedes →
    heapInv q → indexInv q →
    List.Pairwise (fun a b : Node K V P => q.precedes b.prio a.prio = false)
      (popAllFuel fuel q) ∧
    List.Perm (popAllFuel fuel q) q.heap := by
  induction fuel with
  | zero =>
    intro q hlen hT hA hN hH hI
    have hnil : q.heap = [] := List.length_eq_zero.mp hlen
    rw [popAllFuel, hnil]
    exact ⟨List.Pairwise.nil, List.Perm.refl _⟩
  | succ f ih =>
    intro q hlen hT hA hN hH hI
    cases hheap : q.heap with
    | nil => rw [hheap] at hlen; cases hlen
    | cons top rest =>
      have htop : q.heap[0]? = some top := by
        rw [hheap]
        simp
      have hlk : lookupPos q.position top.key = some 0 :=
        indexInv_lookup_of_getElem? hI htop
      obtain ⟨q', hdel⟩ := delitem_isOk q top.key 0 hI hlk
      obtain ⟨hH', hI', hprec', hkeyfn', hlen', hperm', hnone'⟩ :=
        delitem_ok_spec q top.key hT hA hN hH hI q' hdel
      obtain ⟨pos0, node0, hlk0, hnode0, hkey0, hperm0⟩ := hperm'
      have hpos0 : pos0 = 0 := by
        rw [hlk] at hlk0
        exact (Option.some_inj.mp hlk0).symm
      have hnodetop : node0 = top := by
        rw [hpos0, htop] at hnode0
        exact Option.some_inj.mp hnode0.symm
      have hlen'' : q'.heap.length = f := by
        rw [hlen']
        omega
      have ihq := ih q' hlen'' (by rw [hprec']; exact hT)
        (by rw [hprec']; exact hA) (by rw [hprec']; exact hN) hH' hI'
      have hstep : popAllFuel (f + 1) q = top :: popAllFuel f q' := by
        rw [popAllFuel]
        rw [hheap]  -- hmm: popAllFuel matches on q.heap
        simp only [hdel]
      rw [hstep]
      constructor
      · refine List.Pairwise.cons ?_ ?_
        · intro b hb
          have hbq' : b ∈ q'.heap := (ihq.2.mem_iff).mp hb
          have hbq : b ∈ q.heap := by
            rw [hnodetop] at hperm0
            exact (hperm0.mem_iff).mp (List.mem_cons_of_mem _ hbq')
          obtain ⟨t, hbt⟩ := List.mem_iff_getElem?.mp hbq
          exact heapInv_root_min q hT hA hN hH top htop t b hbt
        · have hrel : (fun a b : Node K V P =>
              q'.precedes b.prio a.prio = false) =
              (fun a b : Node K V P => q.precedes b.prio a.prio = false) := by
            rw [hprec']
          rw [← hrel]
          exact ihq.1
      · rw [hnodetop] at hperm0
        rw [hheap] at hperm0
        exact (ihq.2.cons top).trans hperm0

theorem popAll_spec (q : PQ K V P)
    (hT : TransB q.precedes) (hA : AsymmB q.precedes) (hN : NegTransB q.precedes)
    (hH : heapInv q) (hI : indexInv q) :
    List.Pairwise (fun a b : Node K V P => q.precedes b.prio a.prio = false)
      (popAll q) ∧
    List.Perm (popAll q) q.heap :=
  popAllFuel_spec q.heap.length q rfl hT hA hN hH hI

/-! ### The default comparator (`operator.lt` on a linear order) is a strict
weak order -/

theorem transB_intLt : TransB (fun a b : Int => decide (a < b)) := by
  intro a b c hab hbc
  exact decide_eq_true (lt_trans (of_decide_eq_true hab) (of_decide_eq_true hbc))

theorem asymmB_intLt : AsymmB (fun a b : Int => decide (a < b)) := by
  intro a b h
  exact decide_eq_false (lt_asymm (of_decide_eq_true h))

theorem negTransB_intLt : NegTransB (fun a b : Int => decide (a < b)) := by
  intro a b c hab hbc
  exact decide_eq_false
    (not_lt.mpr (le_trans (not_lt.mp (of_decide_eq_false hbc))
      (not_lt.mp (of_decide_eq_false hab))))

/-! ### Claim theorems -/

/-- C1: for every queue state and every key not already present,
`pushpopitem(key, value)` behaves as specified: if the queue is non-empty and
the current top entry strictly precedes the new entry under the configured
comparator, the new entry replaces the root (the old root's key is removed
from the index, the new entry is recorded at array index 0 with the rest of
the array and index untouched, and order is restored by `sink` from the
root) and the evicted old root's key/value pair is returned; otherwise
(queue empty, or the new entry at least as prioritized as the top) the queue
is left completely unmodified and the new key/value pair itself is
returned. -/
theorem C1_pushpopitem_behaviour (q : PQ K V P) (k : K) (v : V)
    (hI : indexInv q) (hlk : lookupPos q.position k = none) :
    (q.heap = [] → pushpopitem q k v = .ok ((k, v), q)) ∧
    (∀ (top : Node K V P) (rest : List (Node K V P)), q.heap = top :: rest →
      (q.precedes top.prio (q.keyfn v) = false →
        pushpopitem q k v = .ok ((k, v), q)) ∧
      (q.precedes top.prio (q.keyfn v) = true →
        ∃ qmid : PQ K V P,
          pushpopitem q k v = .ok ((top.key, top.value), sink qmid 0) ∧
          qmid.heap[0]? = some ⟨k, v, q.keyfn v⟩ ∧
          (∀ t, t ≠ 0 → qmid.heap[t]? = q.heap[t]?) ∧
          lookupPos qmid.position top.key = none ∧
          lookupPos qmid.position k = some 0 ∧
          (∀ k', k' ≠ k → k' ≠ top.key →
            lookupPos qmid.position k' = lookupPos q.position k'))) := by
  constructor
  · intro hheap
    exact pushpopitem_eq_empty q k v hlk hheap
  · intro top rest hheap
    constructor
    · intro hpr
      exact pushpopitem_eq_keep q k v top rest hlk hheap hpr
    · intro hpr
      have htop : q.heap[0]? = some top := by
        rw [hheap]
        simp
      have htopk : lookupPos q.position top.key = some 0 :=
        indexInv_lookup_of_getElem? hI htop
      have hktop : k ≠ top.key := by
        intro h
        rw [← h, hlk] at htopk
        cases htopk
      refine ⟨{ q with
                heap := ⟨k, v, q.keyfn v⟩ :: rest
                position := delPos (setPos q.position k 0) top.key },
        pushpopitem_eq_displace q k v top rest hlk hheap hpr, by simp, ?_, ?_, ?_, ?_⟩
      · intro t ht
        cases t with
        | zero => exact absurd rfl ht
        | succ t' =>
          rw [hheap]
          rfl
      · simp only
        exact lookupPos_delPos_self _ _ (nodup_keys_setPos _ _ _ hI.2.2)
      · simp only
        rw [lookupPos_delPos_ne _ _ _ hktop]
        exact lookupPos_setPos_self _ _ _
      · intro k' hk hkt
        simp only
        rw [lookupPos_delPos_ne _ _ _ hkt, lookupPos_setPos_ne _ _ _ _ hk]

theorem topitem_of_head (q : PQ K V P) (r : Node K V P)
    (h : q.heap[0]? = some r) : topitem q = .ok (r.key, r.value) := by
  unfold topitem
  cases hh : q.heap with
  | nil =>
    rw [hh] at h
    cases h
  | cons a t =>
    rw [hh, List.getElem?_cons_zero] at h
    rw [Option.some_inj.mp h]

/-- C2 (amended): for every valid queue state and key/value pair whose key is
not present, provided the new entry's priority does not tie with the current
top (queue empty, or one of the two strictly precedes the other),
`pushpopitem(k, v)` returns the same item as `additem(k, v)` followed by
"read top, then remove the top's key", and the two resulting queues hold the
same entries (equal as multisets of key/value/priority nodes) — though not
necessarily in the same array order. -/
theorem C2_pushpop_equiv_amended (q : PQ K V P) (k : K) (v : V)
    (hT : TransB q.precedes) (hA : AsymmB q.precedes) (hN : NegTransB q.precedes)
    (hH : heapInv q) (hI : indexInv q)
    (hlk : lookupPos q.position k = none)
    (hnotie : ∀ top : Node K V P, q.heap[0]? = some top →
      q.precedes top.prio (q.keyfn v) = true ∨
      q.precedes (q.keyfn v) top.prio = true) :
    ∃ (item : K × V) (qp q1 q2 : PQ K V P),
      pushpopitem q k v = .ok (item, qp) ∧
      additem q k v = .ok q1 ∧
      topitem q1 = .ok item ∧
      delitem q1 item.1 = .ok q2 ∧
      List.Perm qp.heap q2.heap := by
  have hq1I : indexInv (setitem q k v) := setitem_indexInv q k v hI
  have hq1H : heapInv (setitem q k v) := setitem_heapInv q k v hT hA hN hH
  have hq1prec : (setitem q k v).precedes = q.precedes := setitem_precedes q k v
  have hadd : additem q k v = .ok (setitem q k v) := additem_eq_ok q k v hlk
  have heqadd := setitem_eq_add q k v hlk
  have hq1perm : List.Perm (setitem q k v).heap
      (q.heap ++ [⟨k, v, q.keyfn v⟩]) := by
    rw [heqadd]
    exact swim_heap_perm _ _
  have hxnew : (q.heap ++ [(⟨k, v, q.keyfn v⟩ : Node K V P)])[q.heap.length]? =
      some ⟨k, v, q.keyfn v⟩ := List.getElem?_concat_length _ _
  cases hheap : q.heap with
  | nil =>
    -- scenario: empty queue, the new pair comes straight back
    have hpp := pushpopitem_eq_empty q k v hlk hheap
    have hhead : (setitem q k v).heap[0]? = some ⟨k, v, q.keyfn v⟩ := by
      rw [heqadd]
      refine swim_to_root _ _ _ hxnew ?_
      intro t n ht hn
      have hlt := (List.getElem?_eq_some_iff.mp hn).1
      rw [List.length_append, List.length_singleton, hheap] at hlt
      simp at hlt
      rw [hheap] at ht
      simp at ht
      omega
    have htopq1 : topitem (setitem q k v) = .ok (k, v) :=
      topitem_of_head _ _ hhead
    have hlkq1 : lookupPos (setitem q k v).position k = some 0 :=
      indexInv_lookup_of_getElem? hq1I hhead
    obtain ⟨q2, hdel⟩ := delitem_isOk _ k 0 hq1I hlkq1
    obtain ⟨_, _, _, _, _, ⟨pos0, node0, hlk0, hnode0, hkey0, hperm0⟩, _⟩ :=
      delitem_ok_spec _ k (by rw [hq1prec]; exact hT) (by rw [hq1prec]; exact hA)
        (by rw [hq1prec]; exact hN) hq1H hq1I q2 hdel
    have hpos0 : pos0 = 0 := by
      rw [hlkq1] at hlk0
      exact (Option.some_inj.mp hlk0).symm
    have hnode0' : node0 = ⟨k, v, q.keyfn v⟩ := by
      rw [hpos0, hhead] at hnode0
      exact Option.some_inj.mp hnode0.symm
    refine ⟨(k, v), q, setitem q k v, q2, hpp, hadd, htopq1, hdel, ?_⟩
    rw [hnode0'] at hperm0
    have hchain : List.Perm ((⟨k, v, q.keyfn v⟩ : Node K V P) :: q2.heap)
        ((⟨k, v, q.keyfn v⟩ : Node K V P) :: q.heap) := by
      refine hperm0.trans (hq1perm.trans ?_)
      exact List.perm_append_singleton _ _
    exact (hchain.cons_inv).symm.symm.symm
  | cons top rest =>
    have htop : q.heap[0]? = some top := by
      rw [hheap]
      simp
    rcases hnotie top htop with hdisp | hnew
    · -- scenario: the top strictly precedes the new entry; it is evicted
      have hpp := pushpopitem_eq_displace q k v top rest hlk hheap hdisp
      have hhead : (setitem q k v).heap[0]? = some top := by
        rw [heqadd]
        have h0 : (q.heap ++ [(⟨k, v, q.keyfn v⟩ : Node K V P)])[0]? =
            some top := by
          rw [List.getElem?_append_left (by rw [hheap]; simp)]
          exact htop
        rw [swim_head_eq _ _ _ hxnew ?_]
        · exact h0
        · intro r hr
          rw [h0] at hr
          rw [← Option.some_inj.mp hr]
          exact hA top.prio _ hdisp
      have htopq1 : topitem (setitem q k v) = .ok (top.key, top.value) :=
        topitem_of_head _ _ hhead
      have hlkq1 : lookupPos (setitem q k v).position top.key = some 0 :=
        indexInv_lookup_of_getElem? hq1I hhead
      obtain ⟨q2, hdel⟩ := delitem_isOk _ top.key 0 hq1I hlkq1
      obtain ⟨_, _, _, _, _, ⟨pos0, node0, hlk0, hnode0, hkey0, hperm0⟩, _⟩ :=
        delitem_ok_spec _ top.key (by rw [hq1prec]; exact hT)
          (by rw [hq1prec]; exact hA) (by rw [hq1prec]; exact hN) hq1H hq1I q2 hdel
      have hpos0 : pos0 = 0 := by
        rw [hlkq1] at hlk0
        exact (Option.some_inj.mp hlk0).symm
      have hnode0' : node0 = top := by
        rw [hpos0, hhead] at hnode0
        exact Option.some_inj.mp hnode0.symm
      refine ⟨(top.key, top.value), _, setitem q k v, q2, hpp, hadd, htopq1,
        hdel, ?_⟩
      have hqp : List.Perm (sink { q with
          heap := (⟨k, v, q.keyfn v⟩ : Node K V P) :: rest
          position := delPos (setPos q.position k 0) top.key } 0).heap
          ((⟨k, v, q.keyfn v⟩ : Node K V P) :: rest) := sink_heap_perm _ _
      have hq2 : List.Perm q2.heap ((⟨k, v, q.keyfn v⟩ : Node K V P) :: rest) := by
        rw [hnode0'] at hperm0
        have hchain : List.Perm (top :: q2.heap) (top :: (rest ++
            [(⟨k, v, q.keyfn v⟩ : Node K V P)])) := by
          refine hperm0.trans (hq1perm.trans ?_)
          rw [hheap]
          exact List.Perm.refl _
        exact hchain.cons_inv.trans (List.perm_append_singleton _ _)
      exact hqp.trans hq2.symm
    · -- scenario: the new entry precedes the top; the queue is untouched
      have hprf : q.precedes top.prio (q.keyfn v) = false := hA _ _ hnew
      have hpp := pushpopitem_eq_keep q k v top rest hlk hheap hprf
      have hhead : (setitem q k v).heap[0]? = some ⟨k, v, q.keyfn v⟩ := by
        rw [heqadd]
        refine swim_to_root _ _ _ hxnew ?_
        intro t n ht hn
        have hlt := (List.getElem?_eq_some_iff.mp hn).1
        rw [List.length_append, List.length_singleton] at hlt
        have htq : t < q.heap.length := by omega
        rw [List.getElem?_append_left htq] at hn
        have hmin := heapInv_root_min q hT hA hN hH top htop t n hn
        cases hc : q.precedes (q.keyfn v) n.prio with
        | true => rfl
        | false => exact absurd (hN _ _ _ hc hmin) (by rw [hnew]; simp)
      have htopq1 : topitem (setitem q k v) = .ok (k, v) :=
        topitem_of_head _ _ hhead
      have hlkq1 : lookupPos (setitem q k v).position k = some 0 :=
        indexInv_lookup_of_getElem? hq1I hhead
      obtain ⟨q2, hdel⟩ := delitem_isOk _ k 0 hq1I hlkq1
      obtain ⟨_, _, _, _, _, ⟨pos0, node0, hlk0, hnode0, hkey0, hperm0⟩, _⟩ :=
        delitem_ok_spec _ k (by rw [hq1prec]; exact hT) (by rw [hq1prec]; exact hA)
          (by rw [hq1prec]; exact hN) hq1H hq1I q2 hdel
      have hpos0 : pos0 = 0 := by
        rw [hlkq1] at hlk0
        exact (Option.some_inj.mp hlk0).symm
      have hnode0' : node0 = ⟨k, v, q.keyfn v⟩ := by
        rw [hpos0, hhead] at hnode0
        exact Option.some_inj.mp hnode0.symm
      refine ⟨(k, v), q, setitem q k v, q2, hpp, hadd, htopq1, hdel, ?_⟩
      rw [hnode0'] at hperm0
      have hchain : List.Perm ((⟨k, v, q.keyfn v⟩ : Node K V P) :: q2.heap)
          ((⟨k, v, q.keyfn v⟩ : Node K V P) :: q.heap) := by
        refine hperm0.trans (hq1perm.trans ?_)
        exact List.perm_append_singleton _ _
      exact hchain.cons_inv.symm

theorem replace_key_eq_oob (q : PQ K V P) (k newKey : K) (pos : Nat)
    (hnew : lookupPos q.position newKey = none)
    (hlk : lookupPos q.position k = some pos)
    (hnode : q.heap[pos]? = none) :
    replace_key q k newKey = .error .indexError := by
  unfold replace_key
  rw [hnew, hlk]
  simp only [Option.isSome_none, Bool.false_eq_true, if_false, hnode]

/-- C3: after every public mutating operation (insert via assignment or
`additem`, update via `updateitem`, delete, `pushpopitem`, `replace_key`)
run from a state satisfying both invariants with a strict-weak-order
comparator, the heap-order invariant holds: no child strictly precedes its
parent under the configured comparator. -/
theorem C3_heap_invariant (q : PQ K V P) (k k2 : K) (v : V)
    (hT : TransB q.precedes) (hA : AsymmB q.precedes) (hN : NegTransB q.precedes)
    (hH : heapInv q) (hI : indexInv q) :
    heapInv (setitem q k v) ∧
    (∀ q', additem q k v = .ok q' → heapInv q') ∧
    (∀ q', updateitem q k v = .ok q' → heapInv q') ∧
    (∀ q', delitem q k = .ok q' → heapInv q') ∧
    (∀ r q', pushpopitem q k v = .ok (r, q') → heapInv q') ∧
    (∀ q', replace_key q k k2 = .ok q' → heapInv q') := by
  refine ⟨setitem_heapInv q k v hT hA hN hH, ?_, ?_, ?_, ?_, ?_⟩
  · intro q' hok
    cases hlk : lookupPos q.position k with
    | none =>
      rw [additem_eq_ok q k v hlk] at hok
      rw [← (Except.ok.injEq _ _).mp hok]
      exact setitem_heapInv q k v hT hA hN hH
    | some pos =>
      rw [additem_eq_error q k v (by rw [hlk]; rfl)] at hok
      cases hok
  · intro q' hok
    cases hlk : lookupPos q.position k with
    | none =>
      rw [updateitem_eq_error q k v hlk] at hok
      cases hok
    | some pos =>
      rw [updateitem_eq_ok q k v (by rw [hlk]; rfl)] at hok
      rw [← (Except.ok.injEq _ _).mp hok]
      exact setitem_heapInv q k v hT hA hN hH
  · intro q' hok
    exact (delitem_ok_spec q k hT hA hN hH hI q' hok).1
  · intro r q' hok
    cases hlk : lookupPos q.position k with
    | some pos =>
      rw [pushpopitem_eq_error q k v (by rw [hlk]; rfl)] at hok
      cases hok
    | none =>
      cases hheap : q.heap with
      | nil =>
        rw [pushpopitem_eq_empty q k v hlk hheap] at hok
        have := (Except.ok.injEq _ _).mp hok
        rw [← (Prod.mk.injEq _ _ _ _).mp this |>.2]
        exact hH
      | cons top rest =>
        cases hpr : q.precedes top.prio (q.keyfn v) with
        | false =>
          rw [pushpopitem_eq_keep q k v top rest hlk hheap hpr] at hok
          have := (Except.ok.injEq _ _).mp hok
          rw [← (Prod.mk.injEq _ _ _ _).mp this |>.2]
          exact hH
        | true =>
          rw [pushpopitem_eq_displace q k v top rest hlk hheap hpr] at hok
          have := (Except.ok.injEq _ _).mp hok
          rw [← (Prod.mk.injEq _ _ _ _).mp this |>.2]
          exact pushpopitem_displace_heapInv q k v top rest hT hA hN hH hheap
  · intro q' hok
    cases hnew : lookupPos q.position k2 with
    | some pos2 =>
      rw [replace_key_eq_already q k k2 (by rw [hnew]; rfl)] at hok
      cases hok
    | none =>
      cases hlk : lookupPos q.position k with
      | none =>
        rw [replace_key_eq_notfound q k k2 hnew hlk] at hok
        cases hok
      | some pos =>
        cases hnode : q.heap[pos]? with
        | none =>
          rw [replace_key_eq_oob q k k2 pos hnew hlk hnode] at hok
          cases hok
        | some node =>
          rw [replace_key_eq_ok q k k2 pos node hnew hlk hnode] at hok
          rw [← (Except.ok.injEq _ _).mp hok]
          exact (replace_key_inv q k k2 pos node hH hI hnew hlk hnode).1

/-- C4: after every public mutating operation run from a state satisfying
both invariants, the position index is exactly consistent with the heap
array: every binding designates the entry carrying its key, every entry's
key is bound to its array index, and the index binds each key at most
once. -/
theorem C4_index_consistency (q : PQ K V P) (k k2 : K) (v : V)
    (hH : heapInv q) (hI : indexInv q) :
    indexInv (setitem q k v) ∧
    (∀ q', additem q k v = .ok q' → indexInv q') ∧
    (∀ q', updateitem q k v = .ok q' → indexInv q') ∧
    (∀ q', delitem q k = .ok q' → indexInv q') ∧
    (∀ r q', pushpopitem q k v = .ok (r, q') → indexInv q') ∧
    (∀ q', replace_key q k k2 = .ok q' → indexInv q') := by
  refine ⟨setitem_indexInv q k v hI, ?_, ?_, ?_, ?_, ?_⟩
  · intro q' hok
    cases hlk : lookupPos q.position k with
    | none =>
      rw [additem_eq_ok q k v hlk] at hok
      rw [← (Except.ok.injEq _ _).mp hok]
      exact setitem_indexInv q k v hI
    | some pos =>
      rw [additem_eq_error q k v (by rw [hlk]; rfl)] at hok
      cases hok
  · intro q' hok
    cases hlk : lookupPos q.position k with
    | none =>
      rw [updateitem_eq_error q k v hlk] at hok
      cases hok
    | some pos =>
      rw [updateitem_eq_ok q k v (by rw [hlk]; rfl)] at hok
      rw [← (Except.ok.injEq _ _).mp hok]
      exact setitem_indexInv q k v hI
  · intro q' hok
    cases hlk : lookupPos q.position k with
    | none =>
      unfold delitem at hok
      rw [hlk] at hok
      cases hok
    | some pos =>
      obtain ⟨node, hnode, hkey⟩ := indexInv_lookup hI hlk
      have hposlt : pos < q.heap.length := (List.getElem?_eq_some_iff.mp hnode).1
      have hne : q.heap ≠ [] := by
        intro h
        rw [h] at hposlt
        cases hposlt
      have hend0 : q.heap.getLast? = some (q.heap.getLast hne) :=
        List.getLast?_eq_getLast q.heap hne
      -- reuse the heap-invariant-free part of the delitem analysis:
      -- index consistency of both delitem branches was established inside
      -- `delitem_ok_spec`, but that lemma also takes the order hypotheses;
      -- here we reprove via the same equations.
      by_cases hpos : pos = q.heap.length - 1
      · rw [delitem_eq_last q k pos _ hlk hend0 hpos] at hok
        rw [← (Except.ok.injEq _ _).mp hok]
        refine indexInv_of_parts _ ?_ ?_ ?_
        · intro e he
          simp only at he ⊢
          have hmem := mem_delPos q.position k e he
          have hek : e.1 ≠ k := mem_delPos_ne q.position k e hI.2.2 he
          have horig := hI.1 e hmem
          have helt : e.2 < q.heap.length := by
            cases h3 : q.heap[e.2]? with
            | none => rw [h3] at horig; cases horig
            | some m => exact (List.getElem?_eq_some_iff.mp h3).1
          have hepos : e.2 ≠ pos := by
            intro h3
            rw [h3, hnode] at horig
            exact hek (by simpa [hkey] using horig.symm)
          rw [List.getElem?_dropLast, if_pos (by omega)]
          exact horig
        · intro t n hget
          simp only at hget ⊢
          have ht := (List.getElem?_eq_some_iff.mp hget).1
          rw [List.length_dropLast] at ht
          rw [List.getElem?_dropLast, if_pos ht] at hget
          have hnk : n.key ≠ k := by
            intro h3
            have h5 := indexInv_lookup_of_getElem? hI hget
            rw [h3, hlk] at h5
            have := Option.some_inj.mp h5
            omega
          rw [lookupPos_delPos_ne _ _ _ hnk]
          exact indexInv_lookup_of_getElem? hI hget
        · exact nodup_keys_delPos _ _ hI.2.2
      · rw [delitem_eq_move q k pos _ hlk hend0 hpos] at hok
        rw [← (Except.ok.injEq _ _).mp hok]
        apply reheapify_indexInv
        set endNode := q.heap.getLast hne with henddef
        have hendget : q.heap[q.heap.length - 1]? = some endNode := by
          rw [← List.getLast?_eq_getElem?]
          exact hend0
        have hplt : pos < q.heap.length - 1 := by omega
        have hkend : endNode.key ≠ k := by
          intro h3
          have h5 := indexInv_lookup_of_getElem? hI hendget
          rw [h3, hlk] at h5
          have := Option.some_inj.mp h5
          omega
        have hgetpos : (q.heap.dropLast.set pos endNode)[pos]? = some endNode := by
          rw [List.getElem?_set_self]
          rw [List.length_dropLast]
          exact hplt
        have hgetq : ∀ (t : Nat) (n : Node K V P), t ≠ pos →
            (q.heap.dropLast.set pos endNode)[t]? = some n →
            t < q.heap.length - 1 ∧ q.heap[t]? = some n := by
          intro t n ht hget
          rw [List.getElem?_set_ne (Ne.symm ht)] at hget
          have htlt := (List.getElem?_eq_some_iff.mp hget).1
          rw [List.length_dropLast] at htlt
          rw [List.getElem?_dropLast, if_pos htlt] at hget
          exact ⟨htlt, hget⟩
        refine indexInv_of_parts _ ?_ ?_ ?_
        · intro e he
          simp only at he ⊢
          have hnd := nodup_keys_delPos q.position k hI.2.2
          rcases mem_setPos _ _ _ _ hnd he with h1 | ⟨h1, h1k⟩
          · subst h1
            rw [hgetpos]
            rfl
          · have hmem := mem_delPos q.position k e h1
            have hek : e.1 ≠ k := mem_delPos_ne q.position k e hI.2.2 h1
            have horig := hI.1 e hmem
            have helt : e.2 < q.heap.length := by
              cases h3 : q.heap[e.2]? with
              | none => rw [h3] at horig; cases horig
              | some m => exact (List.getElem?_eq_some_iff.mp h3).1
            have hepos : e.2 ≠ pos := by
              intro h3
              rw [h3, hnode] at horig
              exact hek (by simpa [hkey] using horig.symm)
            have heend : e.2 ≠ q.heap.length - 1 := by
              intro h3
              rw [h3, hendget] at horig
              exact h1k (by simpa using horig.symm)
            rw [List.getElem?_set_ne (Ne.symm hepos), List.getElem?_dropLast,
              if_pos (by omega)]
            exact horig
        · intro t n hget
          simp only at hget ⊢
          by_cases ht : t = pos
          · rw [ht, hgetpos] at hget
            rw [← Option.some_inj.mp hget, ht]
            exact lookupPos_setPos_self _ _ _
          · obtain ⟨htlt, hget'⟩ := hgetq t n ht hget
            have hnk : n.key ≠ k := by
              intro h3
              have h5 := indexInv_lookup_of_getElem? hI hget'
              rw [h3, hlk] at h5
              exact ht (Option.some_inj.mp h5).symm
            have hnend : n.key ≠ endNode.key := by
              intro h3
              have h5 := indexInv_lookup_of_getElem? hI hget'
              rw [h3] at h5
              have h6 := indexInv_lookup_of_getElem? hI hendget
              rw [h5] at h6
              have := Option.some_inj.mp h6
              omega
            rw [lookupPos_setPos_ne _ _ _ _ hnend,
              lookupPos_delPos_ne _ _ _ hnk]
            exact indexInv_lookup_of_getElem? hI hget'
        · exact nodup_keys_setPos _ _ _ (nodup_keys_delPos _ _ hI.2.2)
  · intro r q' hok
    cases hlk : lookupPos q.position k with
    | some pos =>
      rw [pushpopitem_eq_error q k v (by rw [hlk]; rfl)] at hok
      cases hok
    | none =>
      cases hheap : q.heap with
      | nil =>
        rw [pushpopitem_eq_empty q k v hlk hheap] at hok
        have := (Except.ok.injEq _ _).mp hok
        rw [← (Prod.mk.injEq _ _ _ _).mp this |>.2]
        exact hI
      | cons top rest =>
        cases hpr : q.precedes top.prio (q.keyfn v) with
        | false =>
          rw [pushpopitem_eq_keep q k v top rest hlk hheap hpr] at hok
          have := (Except.ok.injEq _ _).mp hok
          rw [← (Prod.mk.injEq _ _ _ _).mp this |>.2]
          exact hI
        | true =>
          rw [pushpopitem_eq_displace q k v top rest hlk hheap hpr] at hok
          have := (Except.ok.injEq _ _).mp hok
          rw [← (Prod.mk.injEq _ _ _ _).mp this |>.2]
          exact sink_indexInv _ _
            (pushpopitem_displace_inv q k v top rest hI hlk hheap).1
  · intro q' hok
    cases hnew : lookupPos q.position k2 with
    | some pos2 =>
      rw [replace_key_eq_already q k k2 (by rw [hnew]; rfl)] at hok
      cases hok
    | none =>
      cases hlk : lookupPos q.position k with
      | none =>
        rw [replace_key_eq_notfound q k k2 hnew hlk] at hok
        cases hok
      | some pos =>
        cases hnode : q.heap[pos]? with
        | none =>
          rw [replace_key_eq_oob q k k2 pos hnew hlk hnode] at hok
          cases hok
        | some node =>
          rw [replace_key_eq_ok q k k2 pos node hnew hlk hnode] at hok
          rw [← (Except.ok.injEq _ _).mp hok]
          exact (replace_key_inv q k k2 pos node hH hI hnew hlk hnode).2

/-- C5: for every valid queue whose comparator is a strict weak order,
repeatedly performing "read the top item, then remove it by key" until the
queue is empty yields exactly the stored entries (a permutation of the heap
contents), in the comparator's total order: no later-extracted entry
strictly precedes an earlier one.  Each step's "read" agrees with
`topitem`. -/
theorem C5_sorted_extraction (q : PQ K V P)
    (hT : TransB q.precedes) (hA : AsymmB q.precedes) (hN : NegTransB q.precedes)
    (hH : heapInv q) (hI : indexInv q) :
    List.Pairwise (fun a b : Node K V P => q.precedes b.prio a.prio = false)
      (popAll q) ∧
    List.Perm (popAll q) q.heap ∧
    (∀ (top : Node K V P) (rest : List (Node K V P)), q.heap = top :: rest →
      topitem q = .ok (top.key, top.value)) := by
  obtain ⟨h1, h2⟩ := popAll_spec q hT hA hN hH hI
  refine ⟨h1, h2, ?_⟩
  intro top rest hheap
  exact topitem_of_head q top (by rw [hheap]; simp)

theorem removeitem_eq (q : PQ K V P) (k : K) (pos : Nat) (node : Node K V P)
    (hlk : lookupPos q.position k = some pos)
    (hnode : q.heap[pos]? = some node) :
    removeitem q k = (delitem q k).map (fun q' => ((node.key, node.value), q')) := by
  unfold removeitem
  rw [hlk]
  simp only [hnode]

/-- C6: for every valid queue containing key `k` with value `v`, the remove
operation returns the pair `(k, v)` in addition to deleting the entry: the
result is `.ok ((k, v), q')` with `k` no longer bound in `q'`. -/
theorem C6_removeitem_returns_pair (q : PQ K V P) (k : K) (v : V)
    (hT : TransB q.precedes) (hA : AsymmB q.precedes) (hN : NegTransB q.precedes)
    (hH : heapInv q) (hI : indexInv q) (hval : getitem q k = some v) :
    ∃ q' : PQ K V P, removeitem q k = .ok ((k, v), q') ∧
      lookupPos q'.position k = none := by
  unfold getitem at hval
  cases hlk : lookupPos q.position k with
  | none =>
    simp only [hlk] at hval
    cases hval
  | some pos =>
    simp only [hlk] at hval
    cases hnode : q.heap[pos]? with
    | none =>
      rw [hnode] at hval
      cases hval
    | some node =>
      rw [hnode] at hval
      have hv : node.value = v := by simpa using hval
      have hkey : node.key = k := by
        obtain ⟨node', hnode', hkey'⟩ := indexInv_lookup hI hlk
        rw [hnode] at hnode'
        rw [Option.some_inj.mp hnode']
        exact hkey'
      obtain ⟨q', hdel⟩ := delitem_isOk q k pos hI hlk
      obtain ⟨_, _, _, _, _, _, hnone⟩ :=
        delitem_ok_spec q k hT hA hN hH hI q' hdel
      refine ⟨q', ?_, hnone⟩
      rw [removeitem_eq q k pos node hlk hnode, hdel, hkey, hv]
      rfl

/-- C7 (amended): inserting an absent key and then removing it restores the
queue's contents: the resulting queue holds exactly the original entries
(equal as a multiset of key/value/priority nodes, hence the same size, the
same value and the same priority for every other key), with the same
configuration; the internal array order and index positions may be permuted
when stored priorities tie. -/
theorem C7_roundtrip_amended (q : PQ K V P) (k : K) (v : V)
    (hT : TransB q.precedes) (hA : AsymmB q.precedes) (hN : NegTransB q.precedes)
    (hH : heapInv q) (hI : indexInv q)
    (hlk : lookupPos q.position k = none) :
    ∃ q2 : PQ K V P, delitem (setitem q k v) k = .ok q2 ∧
      List.Perm q2.heap q.heap ∧ q2.heap.length = q.heap.length ∧
      q2.precedes = q.precedes ∧ q2.keyfn = q.keyfn := by
  have hq1I : indexInv (setitem q k v) := setitem_indexInv q k v hI
  have hq1H : heapInv (setitem q k v) := setitem_heapInv q k v hT hA hN hH
  have hq1prec : (setitem q k v).precedes = q.precedes := setitem_precedes q k v
  have hq1keyfn : (setitem q k v).keyfn = q.keyfn := setitem_keyfn q k v
  have hq1perm : List.Perm (setitem q k v).heap
      (q.heap ++ [⟨k, v, q.keyfn v⟩]) := by
    rw [setitem_eq_add q k v hlk]
    exact swim_heap_perm _ _
  have hmemnew : (⟨k, v, q.keyfn v⟩ : Node K V P) ∈ (setitem q k v).heap := by
    rw [hq1perm.mem_iff]
    exact List.mem_append_right _ (List.mem_singleton.mpr rfl)
  obtain ⟨t, hget⟩ := List.mem_iff_getElem?.mp hmemnew
  have hlkq1 : lookupPos (setitem q k v).position k = some t :=
    indexInv_lookup_of_getElem? hq1I hget
  obtain ⟨q2, hdel⟩ := delitem_isOk _ k t hq1I hlkq1
  obtain ⟨_, _, hprec2, hkeyfn2, _, ⟨pos0, node0, hlk0, hnode0, hkey0, hperm0⟩, _⟩ :=
    delitem_ok_spec _ k (by rw [hq1prec]; exact hT) (by rw [hq1prec]; exact hA)
      (by rw [hq1prec]; exact hN) hq1H hq1I q2 hdel
  have hnode0mem : node0 ∈ (setitem q k v).heap := by
    exact List.mem_iff_getElem?.mpr ⟨pos0, hnode0⟩
  have hnode0' : node0 = ⟨k, v, q.keyfn v⟩ := by
    rw [hq1perm.mem_iff] at hnode0mem
    rcases List.mem_append.mp hnode0mem with h1 | h1
    · obtain ⟨s, hs⟩ := List.mem_iff_getElem?.mp h1
      have h5 := indexInv_lookup_of_getElem? hI hs
      rw [hkey0, hlk] at h5
      cases h5
    · exact List.mem_singleton.mp h1
  have hchain : List.Perm ((⟨k, v, q.keyfn v⟩ : Node K V P) :: q2.heap)
      ((⟨k, v, q.keyfn v⟩ : Node K V P) :: q.heap) := by
    rw [hnode0'] at hperm0
    exact hperm0.trans (hq1perm.trans (List.perm_append_singleton _ _))
  have hperm2 : List.Perm q2.heap q.heap := hchain.cons_inv
  exact ⟨q2, hdel, hperm2, hperm2.length_eq, by rw [hprec2, hq1prec],
    by rw [hkeyfn2, hq1keyfn]⟩

/-- C8: for every valid queue containing `oldKey` (stored entry `node`) and
not containing `newKey`, `replace_key(oldKey, newKey)` moves only the index
entry and renames the key field of the entry at that position: afterwards
the stored value and priority are retrievable under `newKey`, `oldKey` is
absent, and the array order plus every entry's value and priority are
unchanged. -/
theorem C8_replace_key_frame (q : PQ K V P) (oldk newk : K) (pos : Nat)
    (node : Node K V P) (hI : indexInv q)
    (hnew : lookupPos q.position newk = none)
    (hlk : lookupPos q.position oldk = some pos)
    (hnode : q.heap[pos]? = some node) :
    ∃ q' : PQ K V P, replace_key q oldk newk = .ok q' ∧
      lookupPos q'.position newk = some pos ∧
      q'.heap[pos]? = some ⟨newk, node.value, node.prio⟩ ∧
      getitem q' newk = some node.value ∧
      lookupPos q'.position oldk = none ∧
      (∀ t, t ≠ pos → q'.heap[t]? = q.heap[t]?) ∧
      q'.heap.map (fun n => (n.value, n.prio)) =
        q.heap.map (fun n => (n.value, n.prio)) := by
  have hposlt : pos < q.heap.length := (List.getElem?_eq_some_iff.mp hnode).1
  have holdnew : oldk ≠ newk := by
    intro h
    rw [h, hnew] at hlk
    cases hlk
  refine ⟨_, replace_key_eq_ok q oldk newk pos node hnew hlk hnode, ?_, ?_, ?_,
    ?_, ?_, ?_⟩
  · simp only
    exact lookupPos_setPos_self _ _ _
  · simp only
    exact List.getElem?_set_self hposlt
  · unfold getitem
    simp only [lookupPos_setPos_self]
    rw [List.getElem?_set_self hposlt]
    rfl
  · simp only
    rw [lookupPos_setPos_ne _ _ _ _ holdnew]
    exact lookupPos_delPos_self _ _ hI.2.2
  · intro t ht
    simp only
    exact List.getElem?_set_ne (Ne.symm ht)
  · simp only
    apply List.ext_getElem?
    intro i
    rw [List.getElem?_map, List.getElem?_map]
    by_cases hi : i = pos
    · rw [hi, List.getElem?_set_self hposlt, hnode]
      rfl
    · rw [List.getElem?_set_ne (Ne.symm hi)]

/-- C9: `additem(key, value)` fails with the key-already-present error kind
exactly when the key is already in the index, and it is the only error it
can report; when the key is absent the insert succeeds.  In the source the
presence check precedes any mutation, which the `Except` embedding reflects:
an error result carries out no state change. -/
theorem C9_additem_error_iff (q : PQ K V P) (k : K) (v : V) :
    (additem q k v = .error .keyAlreadyExists ↔ (lookupPos q.position k).isSome) ∧
    (∀ e, additem q k v = .error e → e = .keyAlreadyExists) ∧
    ((lookupPos q.position k).isSome = false →
      additem q k v = .ok (setitem q k v)) := by
  cases hlk : lookupPos q.position k with
  | none =>
    have hok := additem_eq_ok q k v hlk
    refine ⟨⟨fun h => ?_, fun h => ?_⟩, fun e he => ?_, fun h => hok⟩
    · rw [hok] at h
      cases h
    · simp at h
    · rw [hok] at he
      cases he
  | some pos =>
    have herr := additem_eq_error q k v (by rw [hlk]; rfl)
    refine ⟨⟨fun h => rfl, fun h => herr⟩, fun e he => ?_, fun h => ?_⟩
    · rw [herr] at he
      exact ((Except.error.injEq _ _).mp he).symm
    · simp at h

/-- C10: `replace_key` checks the new key for presence before looking up the
old key: renaming an existing key to itself fails with the
key-already-present error (and, the check coming first, the queue is left
untouched), and when the old key is absent while the new key is present the
key-already-present error is the one raised (not key-not-found). -/
theorem C10_replace_key_check_order (q : PQ K V P) (k k1 k2 : K) :
    ((lookupPos q.position k).isSome →
      replace_key q k k = .error .keyAlreadyExists) ∧
    (lookupPos q.position k1 = none → (lookupPos q.position k2).isSome →
      replace_key q k1 k2 = .error .keyAlreadyExists) := by
  constructor
  · intro h
    exact replace_key_eq_already q k k h
  · intro h1 h2
    exact replace_key_eq_already q k1 k2 h2

/-- C2 counterexample: the claim fails as stated.  On the one-entry queue
holding key 0 with value 5 and the default comparator, `pushpopitem(1, 5)`
(a priority tie with the top) returns the new pair `(1, 5)` and leaves the
queue unchanged, while `additem(1, 5)` followed by "read top, then remove
top" returns the old top `(0, 5)` and leaves the queue holding key 1 — a
different returned item and a different resulting state.  Moreover, even
without a tie, the resulting internal array orders can differ: on the heap
`[1, 10, 2]`, `pushpopitem` of priority 5 ends with array `[2, 10, 5]`
while the composite ends with `[2, 5, 10]`. -/
theorem C2_pushpop_equiv_counterexample :
    (pushpopitem (⟨id, fun a b => decide (a < b), [⟨0, 5, 5⟩], [(0, 0)]⟩ : PQ Nat Int Int) 1 5).map
        (fun r => (r.1, r.2.heap)) = .ok ((1, 5), [⟨0, 5, 5⟩]) ∧
    (additem (⟨id, fun a b => decide (a < b), [⟨0, 5, 5⟩], [(0, 0)]⟩ : PQ Nat Int Int) 1 5).map
        (fun q1 => (topitem q1, (delitem q1 0).map (fun q2 => q2.heap))) =
      .ok (.ok (0, 5), .ok [⟨1, 5, 5⟩]) ∧
    ¬ ((1, 5) : Nat × Int) = (0, 5) ∧
    ¬ ([⟨0, 5, 5⟩] : List (Node Nat Int Int)) = [⟨1, 5, 5⟩] ∧
    (pushpopitem (⟨id, fun a b => decide (a < b), [⟨0, 1, 1⟩, ⟨1, 10, 10⟩, ⟨2, 2, 2⟩], [(0, 0), (1, 1), (2, 2)]⟩ : PQ Nat Int Int) 3 5).map
        (fun r => r.2.heap) = .ok [⟨2, 2, 2⟩, ⟨1, 10, 10⟩, ⟨3, 5, 5⟩] ∧
    (additem (⟨id, fun a b => decide (a < b), [⟨0, 1, 1⟩, ⟨1, 10, 10⟩, ⟨2, 2, 2⟩], [(0, 0), (1, 1), (2, 2)]⟩ : PQ Nat Int Int) 3 5).map
        (fun q1 => (delitem q1 0).map (fun q2 => q2.heap)) =
      .ok (.ok [⟨2, 2, 2⟩, ⟨3, 5, 5⟩, ⟨1, 10, 10⟩]) ∧
    ¬ ([⟨2, 2, 2⟩, ⟨1, 10, 10⟩, ⟨3, 5, 5⟩] : List (Node Nat Int Int)) =
      [⟨2, 2, 2⟩, ⟨3, 5, 5⟩, ⟨1, 10, 10⟩] := by
  refine ⟨?_, ?_, by decide, by decide, ?_, ?_, by decide⟩
  · simp [pushpopitem, lookupPos, Except.map]
  · set_option maxHeartbeats 1000000 in
    simp [additem, setitem, topitem, delitem, reheapify, lookupPos, setPos,
      delPos, swim.eq_def, sink.eq_def, winner, swapNodes, Except.map]
  · set_option maxHeartbeats 1000000 in
    simp [pushpopitem, lookupPos, setPos, delPos, sink.eq_def, winner,
      swapNodes, Except.map]
  · set_option maxHeartbeats 1000000 in
    simp [additem, setitem, topitem, delitem, reheapify, lookupPos, setPos,
      delPos, swim.eq_def, sink.eq_def, winner, swapNodes, Except.map]

/-- C7 counterexample: the round-trip claim fails as stated when priorities
tie.  On the valid five-entry queue with priorities `[1, 1, 2, 3, 3]`,
inserting key 5 with priority 0 and then removing it leaves the array in a
different order (`[1, 2, 1, 3, 3]` by key `[1, 2, 0, 3, 3]`) and moves other
keys' index entries (key 0 moves from index 0 to index 2), although the
contents are the same multiset. -/
theorem C7_roundtrip_counterexample :
    (delitem (setitem (⟨id, fun a b => decide (a < b), [⟨0, 1, 1⟩, ⟨1, 1, 1⟩, ⟨2, 2, 2⟩, ⟨3, 3, 3⟩, ⟨4, 3, 3⟩], [(0, 0), (1, 1), (2, 2), (3, 3), (4, 4)]⟩ : PQ Nat Int Int) 5 0) 5).map
        (fun q2 => (q2.heap, lookupPos q2.position 0)) =
      .ok ([⟨1, 1, 1⟩, ⟨2, 2, 2⟩, ⟨0, 1, 1⟩, ⟨3, 3, 3⟩, ⟨4, 3, 3⟩], some 2) ∧
    ¬ ([⟨1, 1, 1⟩, ⟨2, 2, 2⟩, ⟨0, 1, 1⟩, ⟨3, 3, 3⟩, ⟨4, 3, 3⟩] :
        List (Node Nat Int Int)) =
      [⟨0, 1, 1⟩, ⟨1, 1, 1⟩, ⟨2, 2, 2⟩, ⟨3, 3, 3⟩, ⟨4, 3, 3⟩] ∧
    lookupPos (⟨id, fun a b => decide (a < b), [⟨0, 1, 1⟩, ⟨1, 1, 1⟩, ⟨2, 2, 2⟩, ⟨3, 3, 3⟩, ⟨4, 3, 3⟩], [(0, 0), (1, 1), (2, 2), (3, 3), (4, 4)]⟩ : PQ Nat Int Int).position 0 = some 0 ∧
    ¬ (some 2 : Option Nat) = some 0 := by
  refine ⟨?_, by decide, by decide, by decide⟩
  have h1 : setitem (⟨id, fun a b => decide (a < b), [⟨0, 1, 1⟩, ⟨1, 1, 1⟩, ⟨2, 2, 2⟩, ⟨3, 3, 3⟩, ⟨4, 3, 3⟩], [(0, 0), (1, 1), (2, 2), (3, 3), (4, 4)]⟩ : PQ Nat Int Int) 5 0 =
      ⟨id, fun a b => decide (a < b),
        [⟨5, 0, 0⟩, ⟨1, 1, 1⟩, ⟨0, 1, 1⟩, ⟨3, 3, 3⟩, ⟨4, 3, 3⟩, ⟨2, 2, 2⟩],
        [(0, 2), (1, 1), (2, 5), (3, 3), (4, 4), (5, 0)]⟩ := by
    set_option maxHeartbeats 1000000 in
    simp [setitem, lookupPos, setPos, swim.eq_def, swapNodes]
  rw [h1]
  set_option maxHeartbeats 1000000 in
  simp [delitem, reheapify, lookupPos, setPos, delPos, swim.eq_def,
    sink.eq_def, winner, swapNodes, Except.map]

/-! ### Witnesses: the hypotheses of the claim theorems are satisfiable on a
concrete queue (keys 0, 1, 2 holding values 2, 5, 8 under the default
ascending comparator) -/

theorem C1_pushpopitem_behaviour_witness :
    indexInv (⟨id, fun a b => decide (a < b), [⟨0, 2, 2⟩, ⟨1, 5, 5⟩, ⟨2, 8, 8⟩], [(0, 0), (1, 1), (2, 2)]⟩ : PQ Nat Int Int) ∧
    lookupPos (⟨id, fun a b => decide (a < b), [⟨0, 2, 2⟩, ⟨1, 5, 5⟩, ⟨2, 8, 8⟩], [(0, 0), (1, 1), (2, 2)]⟩ : PQ Nat Int Int).position 3 = none ∧
    pushpopitem (⟨id, fun a b => decide (a < b), [⟨0, 2, 2⟩, ⟨1, 5, 5⟩, ⟨2, 8, 8⟩], [(0, 0), (1, 1), (2, 2)]⟩ : PQ Nat Int Int) 3 1 = .ok ((3, 1), (⟨id, fun a b => decide (a < b), [⟨0, 2, 2⟩, ⟨1, 5, 5⟩, ⟨2, 8, 8⟩], [(0, 0), (1, 1), (2, 2)]⟩ : PQ Nat Int Int)) :=
  ⟨by decide, by decide,
    ((C1_pushpopitem_behaviour (⟨id, fun a b => decide (a < b), [⟨0, 2, 2⟩, ⟨1, 5, 5⟩, ⟨2, 8, 8⟩], [(0, 0), (1, 1), (2, 2)]⟩ : PQ Nat Int Int) 3 1 (by decide) (by decide)).2
      ⟨0, 2, 2⟩ [⟨1, 5, 5⟩, ⟨2, 8, 8⟩] rfl).1 (by decide)⟩

theorem C2_pushpop_equiv_amended_witness :
    TransB (fun a b : Int => decide (a < b)) ∧
    AsymmB (fun a b : Int => decide (a < b)) ∧
    NegTransB (fun a b : Int => decide (a < b)) ∧
    heapInv (⟨id, fun a b => decide (a < b), [⟨0, 2, 2⟩, ⟨1, 5, 5⟩, ⟨2, 8, 8⟩], [(0, 0), (1, 1), (2, 2)]⟩ : PQ Nat Int Int) ∧
    indexInv (⟨id, fun a b => decide (a < b), [⟨0, 2, 2⟩, ⟨1, 5, 5⟩, ⟨2, 8, 8⟩], [(0, 0), (1, 1), (2, 2)]⟩ : PQ Nat Int Int) ∧
    lookupPos (⟨id, fun a b => decide (a < b), [⟨0, 2, 2⟩, ⟨1, 5, 5⟩, ⟨2, 8, 8⟩], [(0, 0), (1, 1), (2, 2)]⟩ : PQ Nat Int Int).position 3 = none ∧
    (∃ (item : Nat × Int) (qp q1 q2 : PQ Nat Int Int),
      pushpopitem (⟨id, fun a b => decide (a < b), [⟨0, 2, 2⟩, ⟨1, 5, 5⟩, ⟨2, 8, 8⟩], [(0, 0), (1, 1), (2, 2)]⟩ : PQ Nat Int Int) 3 9 = .ok (item, qp) ∧
      additem (⟨id, fun a b => decide (a < b), [⟨0, 2, 2⟩, ⟨1, 5, 5⟩, ⟨2, 8, 8⟩], [(0, 0), (1, 1), (2, 2)]⟩ : PQ Nat Int Int) 3 9 = .ok q1 ∧
      topitem q1 = .ok item ∧
      delitem q1 item.1 = .ok q2 ∧
      List.Perm qp.heap q2.heap) :=
  ⟨transB_intLt, asymmB_intLt, negTransB_intLt, by decide, by decide, by decide,
    C2_pushpop_equiv_amended (⟨id, fun a b => decide (a < b), [⟨0, 2, 2⟩, ⟨1, 5, 5⟩, ⟨2, 8, 8⟩], [(0, 0), (1, 1), (2, 2)]⟩ : PQ Nat Int Int) 3 9 transB_intLt asymmB_intLt
      negTransB_intLt (by decide) (by decide) (by decide)
      (by
        intro top htop
        have h0 : (⟨id, fun a b => decide (a < b), [⟨0, 2, 2⟩, ⟨1, 5, 5⟩, ⟨2, 8, 8⟩], [(0, 0), (1, 1), (2, 2)]⟩ : PQ Nat Int Int).heap[0]? = some ⟨0, 2, 2⟩ := by decide
        rw [h0] at htop
        rw [← Option.some_inj.mp htop]
        exact Or.inl (by decide))⟩

theorem C3_heap_invariant_witness :
    TransB (fun a b : Int => decide (a < b)) ∧
    AsymmB (fun a b : Int => decide (a < b)) ∧
    NegTransB (fun a b : Int => decide (a < b)) ∧
    heapInv (⟨id, fun a b => decide (a < b), [⟨0, 2, 2⟩, ⟨1, 5, 5⟩, ⟨2, 8, 8⟩], [(0, 0), (1, 1), (2, 2)]⟩ : PQ Nat Int Int) ∧
    indexInv (⟨id, fun a b => decide (a < b), [⟨0, 2, 2⟩, ⟨1, 5, 5⟩, ⟨2, 8, 8⟩], [(0, 0), (1, 1), (2, 2)]⟩ : PQ Nat Int Int) ∧
    heapInv (setitem (⟨id, fun a b => decide (a < b), [⟨0, 2, 2⟩, ⟨1, 5, 5⟩, ⟨2, 8, 8⟩], [(0, 0), (1, 1), (2, 2)]⟩ : PQ Nat Int Int) 3 9) :=
  ⟨transB_intLt, asymmB_intLt, negTransB_intLt, by decide, by decide,
    (C3_heap_invariant (⟨id, fun a b => decide (a < b), [⟨0, 2, 2⟩, ⟨1, 5, 5⟩, ⟨2, 8, 8⟩], [(0, 0), (1, 1), (2, 2)]⟩ : PQ Nat Int Int) 3 1 9 transB_intLt asymmB_intLt negTransB_intLt
      (by decide) (by decide)).1⟩

theorem C4_index_consistency_witness :
    heapInv (⟨id, fun a b => decide (a < b), [⟨0, 2, 2⟩, ⟨1, 5, 5⟩, ⟨2, 8, 8⟩], [(0, 0), (1, 1), (2, 2)]⟩ : PQ Nat Int Int) ∧
    indexInv (⟨id, fun a b => decide (a < b), [⟨0, 2, 2⟩, ⟨1, 5, 5⟩, ⟨2, 8, 8⟩], [(0, 0), (1, 1), (2, 2)]⟩ : PQ Nat Int Int) ∧
    indexInv (setitem (⟨id, fun a b => decide (a < b), [⟨0, 2, 2⟩, ⟨1, 5, 5⟩, ⟨2, 8, 8⟩], [(0, 0), (1, 1), (2, 2)]⟩ : PQ Nat Int Int) 3 9) :=
  ⟨by decide, by decide,
    (C4_index_consistency (⟨id, fun a b => decide (a < b), [⟨0, 2, 2⟩, ⟨1, 5, 5⟩, ⟨2, 8, 8⟩], [(0, 0), (1, 1), (2, 2)]⟩ : PQ Nat Int Int) 3 1 9 (by decide) (by decide)).1⟩

theorem C5_sorted_extraction_witness :
    heapInv (⟨id, fun a b => decide (a < b), [⟨0, 2, 2⟩, ⟨1, 5, 5⟩, ⟨2, 8, 8⟩], [(0, 0), (1, 1), (2, 2)]⟩ : PQ Nat Int Int) ∧
    indexInv (⟨id, fun a b => decide (a < b), [⟨0, 2, 2⟩, ⟨1, 5, 5⟩, ⟨2, 8, 8⟩], [(0, 0), (1, 1), (2, 2)]⟩ : PQ Nat Int Int) ∧
    List.Pairwise
      (fun a b : Node Nat Int Int => (⟨id, fun a b => decide (a < b), [⟨0, 2, 2⟩, ⟨1, 5, 5⟩, ⟨2, 8, 8⟩], [(0, 0), (1, 1), (2, 2)]⟩ : PQ Nat Int Int).precedes b.prio a.prio = false)
      (popAll (⟨id, fun a b => decide (a < b), [⟨0, 2, 2⟩, ⟨1, 5, 5⟩, ⟨2, 8, 8⟩], [(0, 0), (1, 1), (2, 2)]⟩ : PQ Nat Int Int)) ∧
    List.Perm (popAll (⟨id, fun a b => decide (a < b), [⟨0, 2, 2⟩, ⟨1, 5, 5⟩, ⟨2, 8, 8⟩], [(0, 0), (1, 1), (2, 2)]⟩ : PQ Nat Int Int)) (⟨id, fun a b => decide (a < b), [⟨0, 2, 2⟩, ⟨1, 5, 5⟩, ⟨2, 8, 8⟩], [(0, 0), (1, 1), (2, 2)]⟩ : PQ Nat Int Int).heap :=
  ⟨by decide, by decide,
    (C5_sorted_extraction (⟨id, fun a b => decide (a < b), [⟨0, 2, 2⟩, ⟨1, 5, 5⟩, ⟨2, 8, 8⟩], [(0, 0), (1, 1), (2, 2)]⟩ : PQ Nat Int Int) transB_intLt asymmB_intLt negTransB_intLt
      (by decide) (by decide)).1,
    (C5_sorted_extraction (⟨id, fun a b => decide (a < b), [⟨0, 2, 2⟩, ⟨1, 5, 5⟩, ⟨2, 8, 8⟩], [(0, 0), (1, 1), (2, 2)]⟩ : PQ Nat Int Int) transB_intLt asymmB_intLt negTransB_intLt
      (by decide) (by decide)).2.1⟩

theorem C6_removeitem_returns_pair_witness :
    heapInv (⟨id, fun a b => decide (a < b), [⟨0, 2, 2⟩, ⟨1, 5, 5⟩, ⟨2, 8, 8⟩], [(0, 0), (1, 1), (2, 2)]⟩ : PQ Nat Int Int) ∧
    indexInv (⟨id, fun a b => decide (a < b), [⟨0, 2, 2⟩, ⟨1, 5, 5⟩, ⟨2, 8, 8⟩], [(0, 0), (1, 1), (2, 2)]⟩ : PQ Nat Int Int) ∧
    getitem (⟨id, fun a b => decide (a < b), [⟨0, 2, 2⟩, ⟨1, 5, 5⟩, ⟨2, 8, 8⟩], [(0, 0), (1, 1), (2, 2)]⟩ : PQ Nat Int Int) 0 = some 2 ∧
    (∃ q' : PQ Nat Int Int, removeitem (⟨id, fun a b => decide (a < b), [⟨0, 2, 2⟩, ⟨1, 5, 5⟩, ⟨2, 8, 8⟩], [(0, 0), (1, 1), (2, 2)]⟩ : PQ Nat Int Int) 0 = .ok ((0, 2), q') ∧
      lookupPos q'.position 0 = none) ∧
    (removeitem (⟨id, fun a b => decide (a < b), [⟨0, 2, 2⟩, ⟨1, 5, 5⟩, ⟨2, 8, 8⟩], [(0, 0), (1, 1), (2, 2)]⟩ : PQ Nat Int Int) 0).map (fun r => topitem r.2) = .ok (.ok (1, 5)) :=
  ⟨by decide, by decide, by decide,
    C6_removeitem_returns_pair (⟨id, fun a b => decide (a < b), [⟨0, 2, 2⟩, ⟨1, 5, 5⟩, ⟨2, 8, 8⟩], [(0, 0), (1, 1), (2, 2)]⟩ : PQ Nat Int Int) 0 2 transB_intLt asymmB_intLt
      negTransB_intLt (by decide) (by decide) (by decide),
    by
      set_option maxHeartbeats 1000000 in
      simp [removeitem, delitem, reheapify, topitem, lookupPos, setPos, delPos,
        swim.eq_def, sink.eq_def, winner, swapNodes, Except.map]⟩

theorem C7_roundtrip_amended_witness :
    heapInv (⟨id, fun a b => decide (a < b), [⟨0, 2, 2⟩, ⟨1, 5, 5⟩, ⟨2, 8, 8⟩], [(0, 0), (1, 1), (2, 2)]⟩ : PQ Nat Int Int) ∧
    indexInv (⟨id, fun a b => decide (a < b), [⟨0, 2, 2⟩, ⟨1, 5, 5⟩, ⟨2, 8, 8⟩], [(0, 0), (1, 1), (2, 2)]⟩ : PQ Nat Int Int) ∧
    lookupPos (⟨id, fun a b => decide (a < b), [⟨0, 2, 2⟩, ⟨1, 5, 5⟩, ⟨2, 8, 8⟩], [(0, 0), (1, 1), (2, 2)]⟩ : PQ Nat Int Int).position 3 = none ∧
    (∃ q2 : PQ Nat Int Int, delitem (setitem (⟨id, fun a b => decide (a < b), [⟨0, 2, 2⟩, ⟨1, 5, 5⟩, ⟨2, 8, 8⟩], [(0, 0), (1, 1), (2, 2)]⟩ : PQ Nat Int Int) 3 4) 3 = .ok q2 ∧
      List.Perm q2.heap (⟨id, fun a b => decide (a < b), [⟨0, 2, 2⟩, ⟨1, 5, 5⟩, ⟨2, 8, 8⟩], [(0, 0), (1, 1), (2, 2)]⟩ : PQ Nat Int Int).heap ∧ q2.heap.length = (⟨id, fun a b => decide (a < b), [⟨0, 2, 2⟩, ⟨1, 5, 5⟩, ⟨2, 8, 8⟩], [(0, 0), (1, 1), (2, 2)]⟩ : PQ Nat Int Int).heap.length ∧
      q2.precedes = (⟨id, fun a b => decide (a < b), [⟨0, 2, 2⟩, ⟨1, 5, 5⟩, ⟨2, 8, 8⟩], [(0, 0), (1, 1), (2, 2)]⟩ : PQ Nat Int Int).precedes ∧ q2.keyfn = (⟨id, fun a b => decide (a < b), [⟨0, 2, 2⟩, ⟨1, 5, 5⟩, ⟨2, 8, 8⟩], [(0, 0), (1, 1), (2, 2)]⟩ : PQ Nat Int Int).keyfn) :=
  ⟨by decide, by decide, by decide,
    C7_roundtrip_amended (⟨id, fun a b => decide (a < b), [⟨0, 2, 2⟩, ⟨1, 5, 5⟩, ⟨2, 8, 8⟩], [(0, 0), (1, 1), (2, 2)]⟩ : PQ Nat Int Int) 3 4 transB_intLt asymmB_intLt negTransB_intLt
      (by decide) (by decide) (by decide)⟩

theorem C8_replace_key_frame_witness :
    indexInv (⟨id, fun a b => decide (a < b), [⟨0, 2, 2⟩, ⟨1, 5, 5⟩, ⟨2, 8, 8⟩], [(0, 0), (1, 1), (2, 2)]⟩ : PQ Nat Int Int) ∧
    lookupPos (⟨id, fun a b => decide (a < b), [⟨0, 2, 2⟩, ⟨1, 5, 5⟩, ⟨2, 8, 8⟩], [(0, 0), (1, 1), (2, 2)]⟩ : PQ Nat Int Int).position 9 = none ∧
    lookupPos (⟨id, fun a b => decide (a < b), [⟨0, 2, 2⟩, ⟨1, 5, 5⟩, ⟨2, 8, 8⟩], [(0, 0), (1, 1), (2, 2)]⟩ : PQ Nat Int Int).position 2 = some 2 ∧
    (⟨id, fun a b => decide (a < b), [⟨0, 2, 2⟩, ⟨1, 5, 5⟩, ⟨2, 8, 8⟩], [(0, 0), (1, 1), (2, 2)]⟩ : PQ Nat Int Int).heap[2]? = some ⟨2, 8, 8⟩ ∧
    (∃ q' : PQ Nat Int Int, replace_key (⟨id, fun a b => decide (a < b), [⟨0, 2, 2⟩, ⟨1, 5, 5⟩, ⟨2, 8, 8⟩], [(0, 0), (1, 1), (2, 2)]⟩ : PQ Nat Int Int) 2 9 = .ok q' ∧
      lookupPos q'.position 9 = some 2 ∧
      q'.heap[2]? = some ⟨9, 8, 8⟩ ∧
      getitem q' 9 = some 8 ∧
      lookupPos q'.position 2 = none ∧
      (∀ t, t ≠ 2 → q'.heap[t]? = (⟨id, fun a b => decide (a < b), [⟨0, 2, 2⟩, ⟨1, 5, 5⟩, ⟨2, 8, 8⟩], [(0, 0), (1, 1), (2, 2)]⟩ : PQ Nat Int Int).heap[t]?) ∧
      q'.heap.map (fun n => (n.value, n.prio)) =
        (⟨id, fun a b => decide (a < b), [⟨0, 2, 2⟩, ⟨1, 5, 5⟩, ⟨2, 8, 8⟩], [(0, 0), (1, 1), (2, 2)]⟩ : PQ Nat Int Int).heap.map (fun n => (n.value, n.prio))) :=
  ⟨by decide, by decide, by decide, by decide,
    C8_replace_key_frame (⟨id, fun a b => decide (a < b), [⟨0, 2, 2⟩, ⟨1, 5, 5⟩, ⟨2, 8, 8⟩], [(0, 0), (1, 1), (2, 2)]⟩ : PQ Nat Int Int) 2 9 2 ⟨2, 8, 8⟩ (by decide) (by decide)
      (by decide) (by decide)⟩

theorem C9_additem_error_iff_witness :
    (lookupPos (⟨id, fun a b => decide (a < b), [⟨0, 2, 2⟩, ⟨1, 5, 5⟩, ⟨2, 8, 8⟩], [(0, 0), (1, 1), (2, 2)]⟩ : PQ Nat Int Int).position 0).isSome ∧
    additem (⟨id, fun a b => decide (a < b), [⟨0, 2, 2⟩, ⟨1, 5, 5⟩, ⟨2, 8, 8⟩], [(0, 0), (1, 1), (2, 2)]⟩ : PQ Nat Int Int) 0 9 = .error .keyAlreadyExists ∧
    (additem (⟨id, fun a b => decide (a < b), [], []⟩ : PQ Nat Int Int) 0 1).map
      (fun q1 => (additem q1 0 2, getitem q1 0)) =
      .ok (.error .keyAlreadyExists, some 1) :=
  ⟨by decide,
    (C9_additem_error_iff (⟨id, fun a b => decide (a < b), [⟨0, 2, 2⟩, ⟨1, 5, 5⟩, ⟨2, 8, 8⟩], [(0, 0), (1, 1), (2, 2)]⟩ : PQ Nat Int Int) 0 9).1.mpr (by decide),
    by
      simp [additem, setitem, getitem, lookupPos, setPos, swim.eq_def,
        Except.map]⟩

theorem C10_replace_key_check_order_witness :
    (lookupPos (⟨id, fun a b => decide (a < b), [⟨0, 2, 2⟩, ⟨1, 5, 5⟩, ⟨2, 8, 8⟩], [(0, 0), (1, 1), (2, 2)]⟩ : PQ Nat Int Int).position 0).isSome ∧
    replace_key (⟨id, fun a b => decide (a < b), [⟨0, 2, 2⟩, ⟨1, 5, 5⟩, ⟨2, 8, 8⟩], [(0, 0), (1, 1), (2, 2)]⟩ : PQ Nat Int Int) 0 0 = .error .keyAlreadyExists ∧
    lookupPos (⟨id, fun a b => decide (a < b), [⟨0, 2, 2⟩, ⟨1, 5, 5⟩, ⟨2, 8, 8⟩], [(0, 0), (1, 1), (2, 2)]⟩ : PQ Nat Int Int).position 5 = none ∧
    replace_key (⟨id, fun a b => decide (a < b), [⟨0, 2, 2⟩, ⟨1, 5, 5⟩, ⟨2, 8, 8⟩], [(0, 0), (1, 1), (2, 2)]⟩ : PQ Nat Int Int) 5 0 = .error .keyAlreadyExists :=
  ⟨by decide,
    (C10_replace_key_check_order (⟨id, fun a b => decide (a < b), [⟨0, 2, 2⟩, ⟨1, 5, 5⟩, ⟨2, 8, 8⟩], [(0, 0), (1, 1), (2, 2)]⟩ : PQ Nat Int Int) 0 5 0).1 (by decide),
    by decide,
    (C10_replace_key_check_order (⟨id, fun a b => decide (a < b), [⟨0, 2, 2⟩, ⟨1, 5, 5⟩, ⟨2, 8, 8⟩], [(0, 0), (1, 1), (2, 2)]⟩ : PQ Nat Int Int) 0 5 0).2 (by decide) (by decide)⟩

end PQDict
